import Mathlib

/-!
Verification of the `FileIdManager` core of this repository
(`jupyter_server/services/contents/fileidmanager.py`).

The manager keeps one sqlite table `Files(id BLOB PRIMARY KEY, path TEXT NOT
NULL UNIQUE)`.  We embed it shallowly:

* the table is a `List Record` in insertion (rowid) order; the two uniqueness
  constraints are checked explicitly by the statement models, which return
  `Except Err` (`Err.integrityError` models `sqlite3.IntegrityError`,
  `Err.invalidIdentifier` models the `ValueError` raised by `uuid.UUID`);
* an identifier is the 128-bit value of a `uuid.UUID`, stored as a `Nat`;
  `uuidStr` renders its hyphenated `str(uuid)` form and `parseUUID` models
  `uuid.UUID(s)` applied to a string (the stored `uuid.hex` form is the
  canonical 32-digit rendering of the same value);
* `uuid.uuid4()` randomness is modelled by a stream `gen : Nat → Nat` and a
  cursor `ctr`; theorems that rely on the statistical uniqueness of UUID4
  assume `FreshGen`;
* `os.path` is embedded with its POSIX behaviour (`normcase` is the identity,
  `normpath` is `posixpath.normpath`, `os.path.join(p, "*")` is `joinStar`);
* sqlite `GLOB` is embedded by `globM`, following sqlite's `patternCompare`
  (`*`, `?`, and `[...]` classes with `^` negation and ranges);
* `UPDATE`/`DELETE`/`INSERT ... SELECT` act on the list in rowid order with
  immediate per-row constraint checks, and the `INSERT ... SELECT` of `copy`
  reads its source rows from a snapshot of the table.
-/

set_option maxRecDepth 4096

namespace FileId

/-- Lowercase hex digit for a nibble, as produced by `uuid.UUID.hex`. -/
def hexDigitChar (n : Nat) : Char :=
  if n < 10 then Char.ofNat (48 + n) else Char.ofNat (87 + n)

/-- Value of a hex digit as accepted by Python `int(s, 16)` (either case). -/
def hexDigitVal (c : Char) : Option Nat :=
  if 48 ≤ c.toNat ∧ c.toNat ≤ 57 then some (c.toNat - 48)
  else if 97 ≤ c.toNat ∧ c.toNat ≤ 102 then some (c.toNat - 87)
  else if 65 ≤ c.toNat ∧ c.toNat ≤ 70 then some (c.toNat - 55)
  else none

/-- Little-endian list of the `k` low hex digits of `n`. -/
def toHexRev : Nat → Nat → List Char
  | 0, _ => []
  | k + 1, n => hexDigitChar (n % 16) :: toHexRev k (n / 16)

/-- The 32-digit `uuid.hex` rendering of a 128-bit value (big-endian). -/
def hex32 (n : Nat) : List Char := (toHexRev 32 n).reverse

/-- Characters of `str(uuid)`: the 32 hex digits in 8-4-4-4-12 groups. -/
def uuidStrChars (n : Nat) : List Char :=
  let h := hex32 n
  h.take 8 ++ '-' ::
    ((h.drop 8).take 4 ++ '-' ::
      ((h.drop 12).take 4 ++ '-' ::
        ((h.drop 16).take 4 ++ '-' :: h.drop 20)))

/-- `str(uuid.UUID(int=n))`, the hyphenated API-level identifier string. -/
def uuidStr (n : Nat) : String := String.mk (uuidStrChars n)

/-- Fold for Python `int(s, 16)` restricted to plain hex digits. -/
def hexValGo (acc : Nat) : List Char → Option Nat
  | [] => some acc
  | c :: cs =>
    match hexDigitVal c with
    | some d => hexValGo (acc * 16 + d) cs
    | none => none

/-- Fold of `int(s, 16)` over a run of plain hex digits. -/
def hexVal (cs : List Char) : Option Nat := hexValGo 0 cs


/-- Does `cs` start with `pat`? -/
def startsWithChars : List Char → List Char → Bool
  | _, [] => true
  | [], _ :: _ => false
  | c :: cs, p :: ps => c = p && startsWithChars cs ps

/-- Fueled worker for Python `str.replace` with a nonempty pattern. -/
def pyReplaceGo (pat rep : List Char) : Nat → List Char → List Char
  | 0, s => s
  | _ + 1, [] => []
  | fuel + 1, c :: cs =>
    if startsWithChars (c :: cs) pat then
      rep ++ pyReplaceGo pat rep fuel ((c :: cs).drop pat.length)
    else c :: pyReplaceGo pat rep fuel cs

/-- Python `s.replace(pat, rep)` for a nonempty `pat`. -/
def pyReplace (s pat rep : List Char) : List Char := pyReplaceGo pat rep s.length s

/-- Python `s.strip(set)`: drop characters of `set` from both ends. -/
def stripSet (set cs : List Char) : List Char :=
  ((cs.dropWhile (fun c => set.contains c)).reverse.dropWhile
    (fun c => set.contains c)).reverse

/-- Whitespace accepted by Python around a numeric literal: the characters
for which `str.isspace()` holds (CPython maps each of them to `' '` before
`int` scans the string). -/
def pyWsChars : List Char :=
  ['\t', '\n', '\x0b', '\x0c', '\r', '\x1c', '\x1d', '\x1e', '\x1f', ' ',
   '\x85', '\xa0', '\u1680', '\u2000', '\u2001', '\u2002', '\u2003',
   '\u2004', '\u2005', '\u2006', '\u2007', '\u2008', '\u2009', '\u200a',
   '\u2028', '\u2029', '\u202f', '\u205f', '\u3000']

/-- Digit run of CPython `int(s, 16)` after the first digit: hex digits,
with a single underscore allowed between two digits (no trailing and no
doubled underscore). -/
def intDigitsGo (acc : Nat) : List Char → Option Nat
  | [] => some acc
  | c :: cs =>
    if c = '_' then
      match cs with
      | c2 :: _ => if (hexDigitVal c2).isSome then intDigitsGo acc cs else none
      | [] => none
    else
      match hexDigitVal c with
      | some d => intDigitsGo (acc * 16 + d) cs
      | none => none

/-- Digit part of CPython `int(s, 16)`: at least one digit, which must come
first (no leading underscore). -/
def intDigits : List Char → Option Nat
  | [] => none
  | c :: cs =>
    match hexDigitVal c with
    | some d => intDigitsGo d cs
    | none => none

/-- Unsigned body of CPython `int(s, 16)`: an optional `0x`/`0X` prefix —
which may be followed by one underscore — then the digits. -/
def intBody (cs : List Char) : Option Nat :=
  match cs with
  | c1 :: c2 :: rest =>
    if c1 = '0' ∧ (c2 = 'x' ∨ c2 = 'X') then
      match rest with
      | c3 :: rest2 => if c3 = '_' then intDigits rest2 else intDigits rest
      | [] => none
    else intDigits (c1 :: c2 :: rest)
  | _ => intDigits cs

/-- CPython `int(s, 16)` on a list of characters: surrounding whitespace,
an optional single `+`/`-` sign, then the optional prefix and underscored
hex digits.  (Decimal digits of non-Latin scripts, which CPython first
transliterates to ASCII, are outside this embedding's alphabet.) -/
def pyIntHex (cs : List Char) : Option Int :=
  match stripSet pyWsChars cs with
  | [] => none
  | c :: rest =>
    if c = '+' then (intBody rest).map (fun v => (v : Int))
    else if c = '-' then (intBody rest).map (fun v => -(v : Int))
    else (intBody (c :: rest)).map (fun v => (v : Int))

/-- Parsing performed by `uuid.UUID(hex=s)`: drop `urn:` and `uuid:`, strip
surrounding braces, drop hyphens, require exactly 32 remaining characters,
convert them with `int(s, 16)`, and accept the value if it passes the
constructor's `0 <= int < 1 << 128` range check. -/
def parseUUIDChars (cs : List Char) : Option Nat :=
  let h1 := pyReplace cs ['u', 'r', 'n', ':'] []
  let h2 := pyReplace h1 ['u', 'u', 'i', 'd', ':'] []
  let h3 := stripSet ['\x7b', '\x7d'] h2
  let h4 := h3.filter (fun c => !(c == '-'))
  if h4.length = 32 then
    match pyIntHex h4 with
    | some i => if 0 ≤ i ∧ i < 2 ^ 128 then some i.toNat else none
    | none => none
  else none

/-- `uuid.UUID(s)` on a string argument: `some` value or a `ValueError`. -/
def parseUUID (s : String) : Option Nat := parseUUIDChars s.data

/-! ### sqlite `GLOB` (sqlite3 `patternCompare` with the GLOB wildcards) -/

/-- Fueled scan of a `[...]` class body after the initial `^`/`]` handling:
`c` is the character being matched, `prior` is sqlite's `prior_c`, `seen`
whether a class member matched.  Returns the rest of the pattern after `]`,
or `none` for an unterminated class. -/
def classScanF (c : Char) : Nat → List Char → Option Char → Bool → Option (Bool × List Char)
  | 0, _, _, _ => none
  | _ + 1, [], _, _ => none
  | fuel + 1, p :: rest, prior, seen =>
    if p = ']' then some (seen, rest)
    else if p = '-' then
      match rest, prior with
      | r2 :: rest2, some pc =>
        if r2 = ']' then classScanF c fuel rest (some '-') (seen || c = '-')
        else classScanF c fuel rest2 none (seen || (pc ≤ c && c ≤ r2))
      | _, _ => classScanF c fuel rest (some '-') (seen || c = '-')
    else classScanF c fuel rest (some p) (seen || c = p)

/-- `classScanF` with enough fuel for its pattern list. -/
def classScan (c : Char) (ps : List Char) (prior : Option Char) (seen : Bool) :
    Option (Bool × List Char) :=
  classScanF c (ps.length + 1) ps prior seen

/-- Match one character against a `[...]` class: `ps` is the pattern after
`[`.  Returns whether the character matched and the pattern after `]`. -/
def classMatch (c : Char) (ps : List Char) : Option (Bool × List Char) :=
  match ps with
  | [] => none
  | p :: rest =>
    let invert := p = '^'
    let ps2 := if p = '^' then rest else ps
    match ps2 with
    | [] => none
    | q :: rest2 =>
      let seen0 := q = ']' && c = ']'
      let ps3 := if q = ']' then rest2 else ps2
      match classScan c ps3 none seen0 with
      | none => none
      | some (seen, restAfter) => some (seen != invert, restAfter)

/-- Fueled sqlite GLOB matcher on character lists. -/
def globM : Nat → List Char → List Char → Bool
  | 0, _, _ => false
  | _ + 1, [], s => s.isEmpty
  | fuel + 1, p :: ps, s =>
    if p = '*' then
      globM fuel ps s ||
        (match s with
         | [] => false
         | _ :: s2 => globM fuel (p :: ps) s2)
    else if p = '?' then
      (match s with
       | [] => false
       | _ :: s2 => globM fuel ps s2)
    else if p = '[' then
      (match s with
       | [] => false
       | c :: s2 =>
         match classMatch c ps with
         | some (true, rest) => globM fuel rest s2
         | _ => false)
    else
      (match s with
       | [] => false
       | c :: s2 => p = c && globM fuel ps s2)

/-- `pattern GLOB`: `globMatch pat s` is sqlite's `s GLOB pat`. -/
def globMatch (pat s : String) : Bool :=
  globM (pat.data.length + s.data.length + 1) pat.data s.data

/-! ### POSIX `os.path` -/

/-- Split a character list on `/`, like Python `path.split('/')`. -/
def splitSlash : List Char → List (List Char)
  | [] => [[]]
  | c :: rest =>
    if c = '/' then [] :: splitSlash rest
    else
      match splitSlash rest with
      | [] => [[c]]
      | g :: gs => (c :: g) :: gs

/-- Join components with `/`, like Python `'/'.join(comps)`. -/
def joinSlash : List (List Char) → List Char
  | [] => []
  | [g] => g
  | g :: h :: t => g ++ '/' :: joinSlash (h :: t)

/-- The component loop of `posixpath.normpath`: `isl` is `initial_slashes`
(as a count), `acc` is `new_comps`. -/
def normLoop (isl : Nat) : List (List Char) → List (List Char) → List (List Char)
  | acc, [] => acc
  | acc, comp :: rest =>
    if comp = [] ∨ comp = ['.'] then normLoop isl acc rest
    else if comp ≠ ['.', '.'] ∨ (isl = 0 ∧ acc = []) ∨
        (acc ≠ [] ∧ acc.getLast? = some ['.', '.']) then
      normLoop isl (acc ++ [comp]) rest
    else if acc ≠ [] then normLoop isl acc.dropLast rest
    else normLoop isl acc rest

/-- `initial_slashes` of `posixpath.normpath` (0, 1, or 2). -/
def normISL (p : List Char) : Nat :=
  if p.take 1 = ['/'] then
    (if p.take 2 = ['/', '/'] ∧ p.take 3 ≠ ['/', '/', '/'] then 2 else 1)
  else 0

/-- Final rendering of `posixpath.normpath`: the slash prefix, the joined
components, and `return path or '.'`. -/
def normRender (isl : Nat) (nc : List (List Char)) : List Char :=
  let res := List.replicate isl '/' ++ joinSlash nc
  if res = [] then ['.'] else res

/-- `posixpath.normpath` on character lists. -/
def normpathChars (p : List Char) : List Char :=
  if p = [] then ['.']
  else normRender (normISL p) (normLoop (normISL p) [] (splitSlash p))

/-- `FileIdManager._normalize_path`: POSIX `normcase` (identity) followed by
`normpath`. -/
def normalize_path (p : String) : String := String.mk (normpathChars p.data)

/-- `os.path.join(p, "*")` on POSIX. -/
def joinStar (p : String) : String :=
  if p = "" then "*"
  else if p.data.getLast? = some '/' then p ++ "*"
  else p ++ "/*"

/-- sqlite `substr(s, y)` for `y ≥ 1`: characters from position `y` on. -/
def sqlSubstr (s : String) (y : Nat) : String := String.mk (s.data.drop (y - 1))

/-! ### The record store -/

/-- Errors surfaced by the embedded operations: `integrityError` is
`sqlite3.IntegrityError` (a uniqueness constraint fired), `invalidIdentifier`
is the `ValueError` raised by `uuid.UUID` on a malformed identifier. -/
inductive Err where
  | integrityError
  | invalidIdentifier
deriving DecidableEq, Repr

/-- One row of the `Files` table: `id BLOB PRIMARY KEY` (the 128-bit UUID
value, always written as `uuid.hex`) and `path TEXT NOT NULL UNIQUE`. -/
structure Record where
  id : Nat
  path : String
deriving DecidableEq, Repr

/-- State of a `FileIdManager`: the `Files` rows in rowid order, plus the
stream of values `uuid.uuid4()` will produce and the cursor into it. -/
structure FIM where
  files : List Record
  gen : Nat → Nat
  ctr : Nat

/-- The ids currently in the table. -/
def idsOf (l : List Record) : List Nat := l.map (fun r => r.id)

/-- The paths currently in the table. -/
def pathsOf (l : List Record) : List String := l.map (fun r => r.path)

/-- `INSERT INTO Files (id, path) VALUES (?,?)` with its constraint checks. -/
def dbInsert (files : List Record) (n : Nat) (p : String) : Except Err (List Record) :=
  if files.any (fun r => r.id == n || r.path == p) then .error .integrityError
  else .ok (files ++ [⟨n, p⟩])

/-- Row-by-row worker for `UPDATE`: `done` are the already-processed rows;
each updated row is checked immediately against every other current row, as
sqlite enforces its uniqueness constraints. -/
def dbUpdateGo (pred : Record → Bool) (f : Record → Record) :
    List Record → List Record → Except Err (List Record)
  | done, [] => .ok done
  | done, r :: rest =>
    if pred r then
      let r2 := f r
      if (done ++ rest).any (fun q => q.id == r2.id || q.path == r2.path) then
        .error .integrityError
      else dbUpdateGo pred f (done ++ [r2]) rest
    else dbUpdateGo pred f (done ++ [r]) rest

/-- `UPDATE Files SET ... WHERE ...` in rowid order. -/
def dbUpdate (files : List Record) (pred : Record → Bool) (f : Record → Record) :
    Except Err (List Record) :=
  dbUpdateGo pred f [] files

/-! ### The seven public operations -/

/-- `FileIdManager.get_id`: point lookup by normalized path; the stored hex
id is returned as `str(uuid.UUID(hex))`. -/
def get_id (st : FIM) (path : String) : Option String :=
  let p := normalize_path path
  match st.files.find? (fun r => r.path == p) with
  | some r => some (uuidStr r.id)
  | none => none

/-- `FileIdManager.get_path`: `uuid.UUID(fid)` is evaluated before the query
and raises on a malformed identifier; then a point lookup by id. -/
def get_path (st : FIM) (fid : String) : Except Err (Option String) :=
  match parseUUID fid with
  | none => .error .invalidIdentifier
  | some n => .ok ((st.files.find? (fun r => r.id == n)).map (fun r => r.path))

/-- `FileIdManager._index`: unconditionally insert a fresh `uuid4` for an
(already normalized) path and return `str(fid)`. -/
def _index (st : FIM) (path : String) : Except Err (String × FIM) :=
  let n := st.gen st.ctr
  match dbInsert st.files n path with
  | .error e => .error e
  | .ok files2 => .ok (uuidStr n, ⟨files2, st.gen, st.ctr + 1⟩)

/-- `FileIdManager.index`: return the existing id if the path is indexed,
otherwise insert a fresh one. -/
def index (st : FIM) (path : String) : Except Err (String × FIM) :=
  let p := normalize_path path
  match get_id st p with
  | some fid => .ok (fid, st)
  | none => _index st p

/-- The `fid` argument of `FileIdManager.insert`: omitted, a string, or a
`uuid.UUID` value. -/
inductive FidArg where
  | none
  | str (s : String)
  | uuid (n : Nat)

/-- Resolution of the `fid` argument in `insert`: `if not fid:` treats both
`None` and the empty string as absent and draws a fresh `uuid4`; a nonempty
string goes through `uuid.UUID`; a `UUID` value is used as given. -/
def resolveFid (st : FIM) : FidArg → Except Err (Nat × FIM)
  | .none => .ok (st.gen st.ctr, ⟨st.files, st.gen, st.ctr + 1⟩)
  | .str s =>
    if s = "" then .ok (st.gen st.ctr, ⟨st.files, st.gen, st.ctr + 1⟩)
    else
      match parseUUID s with
      | some n => .ok (n, st)
      | none => .error .invalidIdentifier
  | .uuid n => .ok (n, st)

/-- `FileIdManager.insert`: explicit insert of a path with an optional
caller-supplied identifier. -/
def insert (st : FIM) (path : String) (fid : FidArg) : Except Err (String × FIM) :=
  let p := normalize_path path
  match resolveFid st fid with
  | .error e => .error e
  | .ok (n, st1) =>
    match dbInsert st1.files n p with
    | .error e => .error e
    | .ok files2 => .ok (uuidStr n, ⟨files2, st1.gen, st1.ctr⟩)

/-- The recursive `UPDATE` of `move`:
`UPDATE Files SET path = ? || substr(path, ?) WHERE path GLOB ?` with the
glob `os.path.join(old_path, "*")` and the substring cut at
`len(old_path) + 1`. -/
def moveRecUpdate (files : List Record) (op np : String) : Except Err (List Record) :=
  dbUpdate files (fun r => globMatch (joinStar op) r.path)
    (fun r => ⟨r.id, np ++ sqlSubstr r.path (op.length + 1)⟩)

/-- `FileIdManager.move`. -/
def move (st : FIM) (old_path new_path : String) (recursive : Bool) :
    Except Err (String × FIM) :=
  let op := normalize_path old_path
  let np := normalize_path new_path
  match (if recursive then moveRecUpdate st.files op np else .ok st.files) with
  | .error e => .error e
  | .ok files1 =>
    let st1 : FIM := ⟨files1, st.gen, st.ctr⟩
    match get_id st1 op with
    | none =>
      let n := st1.gen st1.ctr
      match dbInsert st1.files n np with
      | .error e => .error e
      | .ok files2 => .ok (uuidStr n, ⟨files2, st1.gen, st1.ctr + 1⟩)
    | some fid =>
      match parseUUID fid with
      | none => .error .invalidIdentifier
      | some m =>
        match dbUpdate files1 (fun r => r.id == m) (fun r => ⟨r.id, np⟩) with
        | .error e => .error e
        | .ok files2 => .ok (fid, ⟨files2, st1.gen, st1.ctr⟩)

/-- Worker for the bulk `INSERT INTO Files SELECT new_uuid(), ... WHERE path
GLOB ?` of `copy`: the selected rows come from a snapshot of the table, each
insert draws `new_uuid()` and is constraint-checked immediately. -/
def bulkGo (tp : String) (fromLen : Nat) : FIM → List Record → Except Err FIM
  | st, [] => .ok st
  | st, r :: rest =>
    let n := st.gen st.ctr
    match dbInsert st.files n (tp ++ sqlSubstr r.path (fromLen + 1)) with
    | .error e => .error e
    | .ok files2 => bulkGo tp fromLen ⟨files2, st.gen, st.ctr + 1⟩ rest

/-- The recursive bulk insert of `copy`. -/
def bulkCopyInsert (st : FIM) (fp tp : String) : Except Err FIM :=
  bulkGo tp fp.length st
    (st.files.filter (fun r => globMatch (joinStar fp) r.path))

/-- `FileIdManager.copy`. -/
def copy (st : FIM) (from_path to_path : String) (recursive : Bool) :
    Except Err (String × FIM) :=
  let fp := normalize_path from_path
  let tp := normalize_path to_path
  match (if recursive then bulkCopyInsert st fp tp else .ok st) with
  | .error e => .error e
  | .ok st1 =>
    match index st1 fp with
    | .error e => .error e
    | .ok (_, st2) => _index st2 tp

/-- `FileIdManager.delete`: the recursive `DELETE ... WHERE path GLOB ?`
followed by `DELETE ... WHERE path = ?`. -/
def delete (st : FIM) (path : String) (recursive : Bool) : FIM :=
  let p := normalize_path path
  let files1 :=
    if recursive then st.files.filter (fun r => !globMatch (joinStar p) r.path)
    else st.files
  ⟨files1.filter (fun r => !(r.path == p)), st.gen, st.ctr⟩

/-! ### Side conditions used by the theorems -/

/-- Store well-formedness: the two sqlite uniqueness constraints. -/
def WF (st : FIM) : Prop := (idsOf st.files).Nodup ∧ (pathsOf st.files).Nodup

/-- Statistical uniqueness of `uuid4`: every value still to be generated is
absent from the table, and the stream is injective from the cursor on. -/
def FreshGen (st : FIM) : Prop :=
  (∀ k, st.ctr ≤ k → st.gen k ∉ idsOf st.files) ∧
  (∀ j k, st.ctr ≤ j → st.ctr ≤ k → st.gen j = st.gen k → j = k)

/-- Every stored id is a 128-bit value (all writers store `uuid.hex`). -/
def IdsBound (st : FIM) : Prop := ∀ r ∈ st.files, r.id < 2 ^ 128

/-- Every stored path is normalized (all writers normalize first). -/
def StoredNorm (st : FIM) : Prop := ∀ r ∈ st.files, normalize_path r.path = r.path

/-- The path contains none of the three GLOB wildcard characters. -/
abbrev GlobLiteral (s : String) : Prop := ∀ c ∈ s.data, c ≠ '*' ∧ c ≠ '?' ∧ c ≠ '['

/-- The path is neither empty nor slash-terminated (excludes the root), so
`os.path.join(p, "*")` is `p ++ "/*"`. -/
abbrev NotRootLike (p : String) : Prop := p ≠ "" ∧ p.data.getLast? ≠ some '/'

/-! # Theorems -/

/-! ### Hex digits and the `uuid` string round trip -/

theorem hexDigitVal_lt {c : Char} {d : Nat} (h : hexDigitVal c = some d) : d < 16 := by
  unfold hexDigitVal at h
  split_ifs at h <;> simp_all <;> omega

theorem hexDigitVal_hexDigitChar {d : Nat} (h : d < 16) :
    hexDigitVal (hexDigitChar d) = some d := by
  interval_cases d <;> decide

theorem toHexRev_length (k n : Nat) : (toHexRev k n).length = k := by
  induction k generalizing n with
  | zero => rfl
  | succ k ih => simp [toHexRev, ih]

theorem hex32_length (n : Nat) : (hex32 n).length = 32 := by
  simp [hex32, toHexRev_length]

theorem mem_toHexRev {c : Char} {k n : Nat} (h : c ∈ toHexRev k n) :
    ∃ d, d < 16 ∧ c = hexDigitChar d := by
  induction k generalizing n with
  | zero => simp [toHexRev] at h
  | succ k ih =>
    simp only [toHexRev, List.mem_cons] at h
    rcases h with h | h
    · exact ⟨n % 16, Nat.mod_lt _ (by omega), h⟩
    · exact ih h

theorem mem_hex32 {c : Char} {n : Nat} (h : c ∈ hex32 n) :
    ∃ d, d < 16 ∧ c = hexDigitChar d :=
  mem_toHexRev (List.mem_reverse.mp h)

theorem hexValGo_append (acc : Nat) (l1 l2 : List Char) :
    hexValGo acc (l1 ++ l2) =
      match hexValGo acc l1 with
      | some a => hexValGo a l2
      | none => none := by
  induction l1 generalizing acc with
  | nil => rfl
  | cons c cs ih =>
    simp only [List.cons_append, hexValGo]
    rcases h : hexDigitVal c with _ | d <;> simp [ih]

theorem hexValGo_toHexRev (k : Nat) :
    ∀ n acc, n < 16 ^ k → hexValGo acc ((toHexRev k n).reverse) = some (acc * 16 ^ k + n) := by
  induction k with
  | zero => intro n acc h; interval_cases n; simp [toHexRev, hexValGo]
  | succ k ih =>
    intro n acc h
    have hdiv : n / 16 < 16 ^ k := by
      rw [Nat.div_lt_iff_lt_mul (by omega)]
      calc n < 16 ^ (k + 1) := h
        _ = 16 ^ k * 16 := by rw [pow_succ]
    simp only [toHexRev, List.reverse_cons]
    rw [hexValGo_append, ih (n / 16) acc hdiv]
    simp only [hexValGo, hexDigitVal_hexDigitChar (Nat.mod_lt n (show 0 < 16 by omega))]
    congr 1
    have hmod := Nat.div_add_mod n 16
    rw [pow_succ]
    generalize 16 ^ k = P
    ring_nf
    omega

theorem hexVal_hex32 {n : Nat} (h : n < 2 ^ 128) : hexVal (hex32 n) = some n := by
  have h16 : n < 16 ^ 32 := by
    have : (16 : Nat) ^ 32 = 2 ^ 128 := by norm_num
    omega
  have := hexValGo_toHexRev 32 n 0 h16
  simpa [hexVal, hex32] using this

theorem hexValGo_lt {l : List Char} :
    ∀ {acc m : Nat}, hexValGo acc l = some m → m < (acc + 1) * 16 ^ l.length := by
  induction l with
  | nil =>
    intro acc m h
    simp only [hexValGo] at h
    injection h with h
    simp [← h]
  | cons c cs ih =>
    intro acc m h
    simp only [hexValGo] at h
    rcases hd : hexDigitVal c with _ | d
    · rw [hd] at h; exact absurd h (by simp)
    · rw [hd] at h
      have hlt := ih h
      have hd16 := hexDigitVal_lt hd
      calc m < (acc * 16 + d + 1) * 16 ^ cs.length := hlt
        _ ≤ ((acc + 1) * 16) * 16 ^ cs.length := by
            apply Nat.mul_le_mul_right; omega
        _ = (acc + 1) * 16 ^ (c :: cs).length := by
            rw [List.length_cons, pow_succ]; ring

theorem pyReplaceGo_no_head {c0 : Char} {s : List Char} (pat rep : List Char)
    (h : c0 ∉ s) : ∀ f, pyReplaceGo (c0 :: pat) rep f s = s := by
  induction s with
  | nil => intro f; cases f <;> rfl
  | cons c cs ih =>
    intro f
    cases f with
    | zero => rfl
    | succ f =>
      have hne : c ≠ c0 := fun hc => h (hc ▸ List.mem_cons_self c cs)
      have hsw : startsWithChars (c :: cs) (c0 :: pat) = false := by
        simp [startsWithChars, hne]
      have h2 : pyReplaceGo (c0 :: pat) rep (f + 1) (c :: cs) =
          c :: pyReplaceGo (c0 :: pat) rep f cs := by
        simp [pyReplaceGo, hsw]
      rw [h2, ih (fun hm => h (List.mem_cons_of_mem _ hm)) f]

theorem pyReplace_no_head {c0 : Char} {s : List Char} (pat rep : List Char)
    (h : c0 ∉ s) : pyReplace s (c0 :: pat) rep = s :=
  pyReplaceGo_no_head pat rep h s.length

theorem dropWhile_of_all {p : Char → Bool} {s : List Char}
    (h : ∀ c ∈ s, p c = false) : s.dropWhile p = s := by
  cases s with
  | nil => rfl
  | cons c cs => simp [List.dropWhile, h c (List.mem_cons_self c cs)]

theorem stripSet_of_all {set s : List Char}
    (h : ∀ c ∈ s, set.contains c = false) : stripSet set s = s := by
  unfold stripSet
  rw [dropWhile_of_all h, dropWhile_of_all (by simpa using h), List.reverse_reverse]

theorem hex32_ne_hyphen {n : Nat} : ∀ c ∈ hex32 n, (!(c == '-')) = true := by
  intro c hc
  obtain ⟨d, hd, he⟩ := mem_hex32 hc
  rw [he]; interval_cases d <;> decide

theorem hex32_recombine (h : List Char) :
    h.take 8 ++ ((h.drop 8).take 4 ++ ((h.drop 12).take 4 ++
      ((h.drop 16).take 4 ++ h.drop 20))) = h := by
  have e20 : (h.drop 16).drop 4 = h.drop 20 := by
    rw [List.drop_drop]
  have e16 : (h.drop 12).drop 4 = h.drop 16 := by
    rw [List.drop_drop]
  have e12 : (h.drop 8).drop 4 = h.drop 12 := by
    rw [List.drop_drop]
  rw [← e20, List.take_append_drop, ← e16, List.take_append_drop, ← e12,
    List.take_append_drop, List.take_append_drop]

theorem filter_uuidStrChars (n : Nat) :
    (uuidStrChars n).filter (fun c => !(c == '-')) = hex32 n := by
  have hseg : ∀ l : List Char, List.Sublist l (hex32 n) →
      l.filter (fun c => !(c == '-')) = l :=
    fun l hl => List.filter_eq_self.mpr (fun c hc => hex32_ne_hyphen c (hl.subset hc))
  have hyph : ∀ l : List Char, List.filter (fun c => !(c == '-')) ('-' :: l) =
      List.filter (fun c => !(c == '-')) l :=
    fun l => List.filter_cons_of_neg (by decide)
  unfold uuidStrChars
  simp only [List.filter_append, hyph]
  rw [hseg _ (List.take_sublist _ _),
    hseg _ ((List.take_sublist _ _).trans (List.drop_sublist _ _)),
    hseg _ ((List.take_sublist _ _).trans (List.drop_sublist _ _)),
    hseg _ ((List.take_sublist _ _).trans (List.drop_sublist _ _)),
    hseg _ (List.drop_sublist _ _)]
  exact hex32_recombine (hex32 n)

theorem mem_uuidStrChars {c : Char} {n : Nat} (hc : c ∈ uuidStrChars n) :
    c = '-' ∨ ∃ d, d < 16 ∧ c = hexDigitChar d := by
  by_cases h : c = '-'
  · exact Or.inl h
  · refine Or.inr (mem_hex32 (n := n) ?_)
    rw [← filter_uuidStrChars n]
    exact List.mem_filter.mpr ⟨hc, by simp [h]⟩

theorem uuidStrChars_not_u {n : Nat} : 'u' ∉ uuidStrChars n := by
  intro h
  rcases mem_uuidStrChars h with h2 | ⟨d, hd, he⟩
  · exact absurd h2 (by decide)
  · interval_cases d <;> exact absurd he (by decide)

theorem uuidStrChars_no_brace {n : Nat} :
    ∀ c ∈ uuidStrChars n, (['\x7b', '\x7d'] : List Char).contains c = false := by
  intro c hc
  rcases mem_uuidStrChars hc with h | ⟨d, hd, he⟩
  · rw [h]; decide
  · rw [he]; interval_cases d <;> decide

theorem hexDigitChar_not_special {d : Nat} (h : d < 16) :
    pyWsChars.contains (hexDigitChar d) = false ∧
    ¬(hexDigitChar d = '+') ∧ ¬(hexDigitChar d = '-') ∧
    ¬(hexDigitChar d = '_') ∧ ¬(hexDigitChar d = 'x') ∧
    ¬(hexDigitChar d = 'X') := by
  interval_cases d <;> decide

theorem hex32_not_special {n : Nat} : ∀ c ∈ hex32 n,
    pyWsChars.contains c = false ∧ ¬(c = '+') ∧ ¬(c = '-') ∧
    ¬(c = '_') ∧ ¬(c = 'x') ∧ ¬(c = 'X') := by
  intro c hc
  obtain ⟨d, hd, he⟩ := mem_hex32 hc
  rw [he]
  exact hexDigitChar_not_special hd

theorem intDigitsGo_cons (acc : Nat) (c : Char) (cs : List Char) :
    intDigitsGo acc (c :: cs) =
      if c = '_' then
        (match cs with
          | c2 :: _ =>
            if (hexDigitVal c2).isSome then intDigitsGo acc cs else none
          | [] => none)
      else
        (match hexDigitVal c with
          | some d => intDigitsGo (acc * 16 + d) cs
          | none => none) := rfl

theorem intDigits_cons (c : Char) (cs : List Char) :
    intDigits (c :: cs) =
      (match hexDigitVal c with
        | some d => intDigitsGo d cs
        | none => none) := rfl

theorem intDigitsGo_plain {l : List Char} :
    ∀ acc, (∀ c ∈ l, c ≠ '_') → intDigitsGo acc l = hexValGo acc l := by
  induction l with
  | nil => intro acc _; rfl
  | cons c cs ih =>
    intro acc h
    have hc : ¬(c = '_') := h c (List.mem_cons_self c cs)
    rw [intDigitsGo_cons, if_neg hc]
    simp only [hexValGo]
    rcases hd : hexDigitVal c with _ | d
    · rfl
    · exact ih _ (fun q hq => h q (List.mem_cons_of_mem _ hq))

theorem intDigits_plain {l : List Char} (h : ∀ c ∈ l, c ≠ '_') (hne : l ≠ []) :
    intDigits l = hexVal l := by
  cases l with
  | nil => exact absurd rfl hne
  | cons c cs =>
    rw [intDigits_cons]
    simp only [hexVal, hexValGo]
    rcases hd : hexDigitVal c with _ | d
    · rfl
    · show intDigitsGo d cs = hexValGo (0 * 16 + d) cs
      rw [Nat.zero_mul, Nat.zero_add]
      exact intDigitsGo_plain _ (fun q hq => h q (List.mem_cons_of_mem _ hq))

theorem intBody_cons2 (c1 c2 : Char) (rest : List Char) :
    intBody (c1 :: c2 :: rest) =
      if c1 = '0' ∧ (c2 = 'x' ∨ c2 = 'X') then
        (match rest with
          | c3 :: rest2 => if c3 = '_' then intDigits rest2 else intDigits rest
          | [] => none)
      else intDigits (c1 :: c2 :: rest) := rfl

/-- `int(uuid.hex, 16)` recovers the value: the 32 hex digits are scanned
with no sign, prefix, underscore or whitespace involved. -/
theorem pyIntHex_hex32 {n : Nat} (h : n < 2 ^ 128) :
    pyIntHex (hex32 n) = some (n : Int) := by
  have hstrip : stripSet pyWsChars (hex32 n) = hex32 n :=
    stripSet_of_all (fun c hc => (hex32_not_special c hc).1)
  have hlen := hex32_length n
  rcases hh : hex32 n with _ | ⟨c1, rest⟩
  · rw [hh] at hlen; exact absurd hlen (by decide)
  · rcases hr : rest with _ | ⟨c2, rest2⟩
    · subst hr
      rw [hh] at hlen
      simp at hlen
    · subst hr
      have hc1 := hex32_not_special c1 (by rw [hh]; exact List.mem_cons_self _ _)
      have hc2 := hex32_not_special c2
        (by rw [hh]; exact List.mem_cons_of_mem _ (List.mem_cons_self _ _))
      rw [hh] at hstrip
      unfold pyIntHex
      rw [hstrip]
      show (if c1 = '+' then (intBody (c2 :: rest2)).map (fun v => (v : Int))
        else if c1 = '-' then (intBody (c2 :: rest2)).map (fun v => -(v : Int))
        else (intBody (c1 :: c2 :: rest2)).map (fun v => (v : Int)))
          = some (n : Int)
      rw [if_neg hc1.2.1, if_neg hc1.2.2.1]
      have hcond : ¬(c1 = '0' ∧ (c2 = 'x' ∨ c2 = 'X')) := by
        rintro ⟨-, hx⟩
        rcases hx with hx | hx
        · exact hc2.2.2.2.2.1 hx
        · exact hc2.2.2.2.2.2 hx
      rw [intBody_cons2, if_neg hcond, ← hh,
        intDigits_plain (fun c hc => (hex32_not_special c hc).2.2.2.1)
          (by rw [hh]; exact List.cons_ne_nil _ _),
        hexVal_hex32 h]
      rfl

/-- The stdlib round trip `uuid.UUID(str(u)) == u` for 128-bit values. -/
theorem parseUUID_uuidStr {n : Nat} (h : n < 2 ^ 128) : parseUUID (uuidStr n) = some n := by
  show parseUUIDChars (uuidStr n).data = some n
  have hdata : (uuidStr n).data = uuidStrChars n := rfl
  rw [hdata]
  simp only [parseUUIDChars]
  rw [pyReplace_no_head _ _ uuidStrChars_not_u,
    pyReplace_no_head _ _ uuidStrChars_not_u,
    stripSet_of_all uuidStrChars_no_brace,
    filter_uuidStrChars]
  rw [if_pos (hex32_length n)]
  rw [pyIntHex_hex32 h]
  show (if 0 ≤ (n : Int) ∧ (n : Int) < 2 ^ 128 then some ((n : Int)).toNat
    else none) = some n
  rw [if_pos ⟨Int.natCast_nonneg n, by exact_mod_cast h⟩]
  rw [Int.toNat_natCast]

/-- Any value accepted by `uuid.UUID` is a 128-bit value, by the
constructor's own range check. -/
theorem parseUUID_lt {s : String} {n : Nat} (h : parseUUID s = some n) : n < 2 ^ 128 := by
  simp only [parseUUID, parseUUIDChars] at h
  split_ifs at h with hlen
  · split at h
    · split_ifs at h with hr
      injection h with h
      omega
    · exact absurd h (by simp)

/-! ### `posixpath.normpath` is idempotent -/

theorem splitSlash_ne_nil (p : List Char) : splitSlash p ≠ [] := by
  cases p with
  | nil => simp [splitSlash]
  | cons c rest =>
    by_cases hc : c = '/'
    · simp [splitSlash, hc]
    · simp only [splitSlash, if_neg hc]
      rcases splitSlash rest with _ | ⟨g, gs⟩ <;> simp

theorem splitSlash_no_slash {p : List Char} : ∀ g ∈ splitSlash p, '/' ∉ g := by
  induction p with
  | nil => intro g hg; simp [splitSlash] at hg; simp [hg]
  | cons c rest ih =>
    intro g hg
    by_cases hc : c = '/'
    · simp only [splitSlash, if_pos hc, List.mem_cons] at hg
      rcases hg with rfl | hg
      · simp
      · exact ih g hg
    · simp only [splitSlash, if_neg hc] at hg
      rcases hsplit : splitSlash rest with _ | ⟨h0, t0⟩
      · exact absurd hsplit (splitSlash_ne_nil rest)
      · rw [hsplit] at hg
        simp only [List.mem_cons] at hg
        rcases hg with hgc | hg
        · subst hgc
          intro hmem
          simp only [List.mem_cons] at hmem
          rcases hmem with hmem | hmem
          · exact hc hmem.symm
          · exact ih h0 (hsplit ▸ List.mem_cons_self h0 t0) hmem
        · exact ih g (hsplit ▸ List.mem_cons_of_mem h0 hg)

theorem splitSlash_prepend {g : List Char} (hg : '/' ∉ g) :
    ∀ s, ∃ h0 t0, splitSlash s = h0 :: t0 ∧ splitSlash (g ++ s) = (g ++ h0) :: t0 := by
  induction g with
  | nil =>
    intro s
    rcases hs : splitSlash s with _ | ⟨h0, t0⟩
    · exact absurd hs (splitSlash_ne_nil s)
    · exact ⟨h0, t0, rfl, by simpa using hs⟩
  | cons c g ih =>
    intro s
    have hc : c ≠ '/' := fun h => hg (h ▸ List.mem_cons_self c g)
    obtain ⟨h0, t0, hs, hgs⟩ := ih (fun h => hg (List.mem_cons_of_mem c h)) s
    refine ⟨h0, t0, hs, ?_⟩
    have hstep : splitSlash (c :: (g ++ s)) =
        match splitSlash (g ++ s) with
        | [] => [[c]]
        | q :: qs => (c :: q) :: qs := by
      simp [splitSlash, hc]
    rw [List.cons_append, hstep, hgs]
    rfl

theorem splitSlash_slash (xs : List Char) : splitSlash ('/' :: xs) = [] :: splitSlash xs := by
  simp [splitSlash]

/-- Definitional unfolding of one `normLoop` step. -/
theorem normLoop_cons (isl : Nat) (acc : List (List Char)) (comp : List Char)
    (rest : List (List Char)) :
    normLoop isl acc (comp :: rest) =
      if comp = [] ∨ comp = ['.'] then normLoop isl acc rest
      else if comp ≠ ['.', '.'] ∨ (isl = 0 ∧ acc = []) ∨
          (acc ≠ [] ∧ acc.getLast? = some ['.', '.']) then
        normLoop isl (acc ++ [comp]) rest
      else if acc ≠ [] then normLoop isl acc.dropLast rest
      else normLoop isl acc rest := rfl

theorem normLoop_append (isl : Nat) (l1 l2 : List (List Char)) :
    ∀ acc, normLoop isl acc (l1 ++ l2) = normLoop isl (normLoop isl acc l1) l2 := by
  induction l1 with
  | nil => intro acc; rfl
  | cons comp rest ih =>
    intro acc
    rw [List.cons_append, normLoop_cons, normLoop_cons]
    split_ifs <;> apply ih

theorem normLoop_skip_empty (isl k : Nat) (l : List (List Char)) :
    ∀ acc, normLoop isl acc (List.replicate k [] ++ l) = normLoop isl acc l := by
  induction k with
  | zero => intro acc; rfl
  | succ k ih =>
    intro acc
    rw [List.replicate_succ, List.cons_append, normLoop_cons,
      if_pos (Or.inl rfl), ih acc]

theorem normLoop_plain {l : List (List Char)}
    (h : ∀ g ∈ l, g ≠ [] ∧ g ≠ ['.'] ∧ g ≠ ['.', '.']) :
    ∀ acc isl, normLoop isl acc l = acc ++ l := by
  induction l with
  | nil => intro acc isl; simp [normLoop]
  | cons comp rest ih =>
    intro acc isl
    obtain ⟨h1, h2, h3⟩ := h comp (List.mem_cons_self comp rest)
    rw [normLoop_cons, if_neg (by simp [h1, h2]), if_pos (Or.inl h3),
      ih (fun g hg => h g (List.mem_cons_of_mem comp hg))]
    simp

theorem normLoop_dotdots : ∀ k m : Nat,
    normLoop 0 (List.replicate m ['.', '.']) (List.replicate k ['.', '.']) =
      List.replicate (m + k) ['.', '.'] := by
  intro k
  induction k with
  | zero => intro m; rfl
  | succ k ih =>
    intro m
    have hcond : (['.', '.'] : List Char) ≠ ['.', '.'] ∨
        (0 = 0 ∧ List.replicate m ['.', '.'] = ([] : List (List Char))) ∨
        (List.replicate m ['.', '.'] ≠ ([] : List (List Char)) ∧
          (List.replicate m ['.', '.']).getLast? = some ['.', '.']) := by
      cases m with
      | zero => exact Or.inr (Or.inl ⟨rfl, rfl⟩)
      | succ m2 =>
        refine Or.inr (Or.inr ⟨by simp, ?_⟩)
        rw [List.replicate_succ', List.getLast?_concat]
    have hstep : normLoop 0 (List.replicate m ['.', '.'])
        (['.', '.'] :: List.replicate k ['.', '.']) =
        normLoop 0 (List.replicate (m + 1) ['.', '.']) (List.replicate k ['.', '.']) := by
      rw [normLoop_cons, if_neg (by decide), if_pos hcond, ← List.replicate_succ']
    rw [List.replicate_succ, hstep, ih (m + 1)]
    congr 1
    omega

theorem normLoop_inv {isl : Nat} :
    ∀ (l acc : List (List Char)),
      (∀ g ∈ acc, g ≠ [] ∧ g ≠ ['.'] ∧ '/' ∉ g) →
      (∃ m tl, acc = List.replicate m ['.', '.'] ++ tl ∧ ['.', '.'] ∉ tl ∧
        (isl ≠ 0 → m = 0)) →
      (∀ g ∈ l, '/' ∉ g) →
      (∀ g ∈ normLoop isl acc l, g ≠ [] ∧ g ≠ ['.'] ∧ '/' ∉ g) ∧
      (∃ m tl, normLoop isl acc l = List.replicate m ['.', '.'] ++ tl ∧
        ['.', '.'] ∉ tl ∧ (isl ≠ 0 → m = 0)) := by
  intro l
  induction l with
  | nil => intro acc hmem hstruct _; exact ⟨hmem, hstruct⟩
  | cons comp rest ih =>
    intro acc hmem hstruct hl
    have hlrest : ∀ g ∈ rest, '/' ∉ g := fun g hg => hl g (List.mem_cons_of_mem comp hg)
    by_cases h1 : comp = [] ∨ comp = ['.']
    · have hstep : normLoop isl acc (comp :: rest) = normLoop isl acc rest := by
        rw [normLoop_cons, if_pos h1]
      rw [hstep]
      exact ih acc hmem hstruct hlrest
    · push_neg at h1
      by_cases h2 : comp ≠ ['.', '.'] ∨ (isl = 0 ∧ acc = []) ∨
          (acc ≠ [] ∧ acc.getLast? = some ['.', '.'])
      · have hstep : normLoop isl acc (comp :: rest) = normLoop isl (acc ++ [comp]) rest := by
          rw [normLoop_cons, if_neg (by simp [h1.1, h1.2]), if_pos h2]
        rw [hstep]
        apply ih _ ?_ ?_ hlrest
        · intro g hg
          rcases List.mem_append.mp hg with hg | hg
          · exact hmem g hg
          · have : g = comp := by simpa using hg
            exact this ▸ ⟨h1.1, h1.2, hl comp (List.mem_cons_self comp rest)⟩
        · obtain ⟨m, tl, hacc, htl, him⟩ := hstruct
          by_cases hdd : comp = ['.', '.']
          · subst hdd
            rcases h2 with h2 | ⟨hisl, haccnil⟩ | ⟨haccne, hlast⟩
            · exact absurd rfl h2
            · rw [haccnil]
              refine ⟨1, [], by simp [List.replicate_succ], by simp, ?_⟩
              intro h; exact absurd hisl h
            · have htlnil : tl = [] := by
                by_contra htlne
                have hgl : acc.getLast? = tl.getLast? := by
                  rw [hacc]; exact List.getLast?_append_of_ne_nil _ htlne
                rw [hlast] at hgl
                have hdd2 : (['.', '.'] : List Char) ∈ tl := by
                  obtain ⟨hne2, heq⟩ := List.mem_getLast?_eq_getLast
                    (show (['.', '.'] : List Char) ∈ tl.getLast? from by
                      rw [← hgl]; rfl)
                  exact heq ▸ List.getLast_mem hne2
                exact htl hdd2
              subst htlnil
              rw [List.append_nil] at hacc
              have hm : m ≠ 0 := by
                intro hm0
                rw [hm0] at hacc
                simp at hacc
                exact haccne hacc
              refine ⟨m + 1, [], ?_, by simp, fun hne => absurd (him hne) hm⟩
              rw [hacc, ← List.replicate_succ']
              simp
          · refine ⟨m, tl ++ [comp], ?_, ?_, him⟩
            · rw [hacc, List.append_assoc]
            · intro hmem2
              rcases List.mem_append.mp hmem2 with hmem2 | hmem2
              · exact htl hmem2
              · apply hdd
                have h5 : (['.', '.'] : List Char) = comp := by simpa using hmem2
                exact h5.symm
      · by_cases h3 : acc = []
        · have hstep : normLoop isl acc (comp :: rest) = normLoop isl acc rest := by
            rw [normLoop_cons, if_neg (by simp [h1.1, h1.2]), if_neg h2,
              if_neg (by simp [h3])]
          rw [hstep]
          exact ih acc hmem hstruct hlrest
        · have hstep : normLoop isl acc (comp :: rest) =
              normLoop isl acc.dropLast rest := by
            rw [normLoop_cons, if_neg (by simp [h1.1, h1.2]), if_neg h2, if_pos h3]
          rw [hstep]
          push_neg at h2
          obtain ⟨m, tl, hacc, htl, him⟩ := hstruct
          have hlast : acc.getLast? ≠ some ['.', '.'] := h2.2.2 h3
          have htlne : tl ≠ [] := by
            intro htlnil
            rw [htlnil, List.append_nil] at hacc
            rcases Nat.eq_zero_or_pos m with hm | hm
            · rw [hm] at hacc; simp at hacc; exact h3 hacc
            · apply hlast
              rw [hacc]
              obtain ⟨m2, rfl⟩ := Nat.exists_eq_succ_of_ne_zero (by omega : m ≠ 0)
              rw [List.replicate_succ', List.getLast?_concat]
          apply ih
          · intro g hg
            exact hmem g (List.dropLast_sublist acc |>.subset hg)
          · refine ⟨m, tl.dropLast, ?_, ?_, him⟩
            · rw [hacc, List.dropLast_append_of_ne_nil _ htlne]
            · intro hmem2
              exact htl (List.dropLast_sublist tl |>.subset hmem2)
          · exact hlrest

theorem joinSlash_cons_ex (g : List Char) (t : List (List Char)) :
    ∃ tl, joinSlash (g :: t) = g ++ tl := by
  cases t with
  | nil => exact ⟨[], by simp [joinSlash]⟩
  | cons h t => exact ⟨'/' :: joinSlash (h :: t), rfl⟩

theorem joinSlash_cons_ne_nil {g : List Char} (hg : g ≠ []) (t : List (List Char)) :
    joinSlash (g :: t) ≠ [] := by
  obtain ⟨tl, htl⟩ := joinSlash_cons_ex g t
  rw [htl]
  simp [hg]

theorem split_join {comps : List (List Char)} (hne : comps ≠ [])
    (hns : ∀ g ∈ comps, '/' ∉ g) : splitSlash (joinSlash comps) = comps := by
  induction comps with
  | nil => exact absurd rfl hne
  | cons g t ih =>
    cases t with
    | nil =>
      obtain ⟨h0, t0, hs, hgs⟩ :=
        splitSlash_prepend (hns g (List.mem_cons_self g [])) []
      have : splitSlash ([] : List Char) = [[]] := rfl
      rw [this] at hs
      injection hs with e1 e2
      rw [joinSlash]
      simpa [← e1, ← e2] using hgs
    | cons h t2 =>
      have hjoin : joinSlash (g :: h :: t2) = g ++ '/' :: joinSlash (h :: t2) := rfl
      obtain ⟨h0, t0, hs, hgs⟩ :=
        splitSlash_prepend (hns g (List.mem_cons_self g _)) ('/' :: joinSlash (h :: t2))
      have hstep : splitSlash ('/' :: joinSlash (h :: t2)) =
          [] :: splitSlash (joinSlash (h :: t2)) := by
        simp [splitSlash]
      rw [hstep, ih (by simp) (fun q hq => hns q (List.mem_cons_of_mem g hq))] at hs
      injection hs with e1 e2
      rw [hjoin, hgs, ← e1, ← e2]
      simp

theorem normRender_of_ne {isl : Nat} {nc : List (List Char)}
    (h : List.replicate isl '/' ++ joinSlash nc ≠ []) :
    normRender isl nc = List.replicate isl '/' ++ joinSlash nc := by
  simp only [normRender]
  rw [if_neg h]

theorem normpath_fix {isl : Nat} {nc : List (List Char)} (hle : isl ≤ 2)
    (hmem : ∀ g ∈ nc, g ≠ [] ∧ g ≠ ['.'] ∧ '/' ∉ g)
    (hstruct : ∃ m tl, nc = List.replicate m ['.', '.'] ++ tl ∧ ['.', '.'] ∉ tl ∧
      (isl ≠ 0 → m = 0)) :
    normpathChars (normRender isl nc) = normRender isl nc := by
  rcases nc with _ | ⟨g, t⟩
  · interval_cases isl
    · decide
    · decide
    · decide
  · obtain ⟨hg1, hg2, hg3⟩ := hmem g (List.mem_cons_self g t)
    obtain ⟨tl, hjoin⟩ := joinSlash_cons_ex g t
    rcases g with _ | ⟨c, g2⟩
    · exact absurd rfl hg1
    have hc : c ≠ '/' := fun h => hg3 (h ▸ List.mem_cons_self c g2)
    have hjoin2 : joinSlash ((c :: g2) :: t) = c :: (g2 ++ tl) := by
      rw [hjoin]; rfl
    have hns : ∀ q ∈ (c :: g2) :: t, '/' ∉ q := fun q hq => (hmem q hq).2.2
    obtain ⟨m, tl2, hnc, htl2, him⟩ := hstruct
    have hreplay : normLoop isl [] ((c :: g2) :: t) = (c :: g2) :: t := by
      rw [hnc, normLoop_append]
      have hdd : normLoop isl [] (List.replicate m ['.', '.']) =
          List.replicate m ['.', '.'] := by
        cases isl with
        | zero => simpa using normLoop_dotdots m 0
        | succ n => rw [him (by omega)]; rfl
      have hplain : ∀ q ∈ tl2, q ≠ [] ∧ q ≠ ['.'] ∧ q ≠ ['.', '.'] := by
        intro q hq
        have hqnc : q ∈ (c :: g2) :: t := by
          rw [hnc]; exact List.mem_append_right _ hq
        exact ⟨(hmem q hqnc).1, (hmem q hqnc).2.1, fun hqdd => htl2 (hqdd ▸ hq)⟩
      rw [hdd, normLoop_plain hplain, ← hnc]
    interval_cases isl
    · -- no leading slash
      have hres : List.replicate 0 '/' ++ joinSlash ((c :: g2) :: t) =
          c :: (g2 ++ tl) := by rw [hjoin2]; rfl
      have hr : normRender 0 ((c :: g2) :: t) = c :: (g2 ++ tl) := by
        simp only [normRender]
        rw [hres, if_neg (by simp)]
      rw [hr]
      have hne2 : (c :: (g2 ++ tl)) ≠ [] := by simp
      have hisl : normISL (c :: (g2 ++ tl)) = 0 := by
        simp [normISL, hc]
      have hsplit2 : splitSlash (c :: (g2 ++ tl)) = (c :: g2) :: t := by
        rw [← hjoin2, split_join (by simp) hns]
      unfold normpathChars
      rw [if_neg hne2, hisl, hsplit2, hreplay, hr]
    · -- one leading slash
      have hres : List.replicate 1 '/' ++ joinSlash ((c :: g2) :: t) =
          '/' :: c :: (g2 ++ tl) := by rw [hjoin2]; rfl
      have hr : normRender 1 ((c :: g2) :: t) = '/' :: c :: (g2 ++ tl) := by
        simp only [normRender]
        rw [hres, if_neg (by simp)]
      rw [hr]
      have hne2 : ('/' :: c :: (g2 ++ tl)) ≠ [] := by simp
      have hisl : normISL ('/' :: c :: (g2 ++ tl)) = 1 := by
        simp [normISL, hc]
      have hsplit2 : splitSlash ('/' :: c :: (g2 ++ tl)) = [] :: (c :: g2) :: t := by
        rw [splitSlash_slash, ← hjoin2, split_join (by simp) hns]
      have hloop : normLoop 1 [] ([] :: (c :: g2) :: t) = (c :: g2) :: t := by
        have hskip := normLoop_skip_empty 1 1 ((c :: g2) :: t) []
        simpa using hskip.trans hreplay
      unfold normpathChars
      rw [if_neg hne2, hisl, hsplit2, hloop, hr]
    · -- two leading slashes
      have hres : List.replicate 2 '/' ++ joinSlash ((c :: g2) :: t) =
          '/' :: '/' :: c :: (g2 ++ tl) := by rw [hjoin2]; rfl
      have hr : normRender 2 ((c :: g2) :: t) = '/' :: '/' :: c :: (g2 ++ tl) := by
        simp only [normRender]
        rw [hres, if_neg (by simp)]
      rw [hr]
      have hne2 : ('/' :: '/' :: c :: (g2 ++ tl)) ≠ [] := by simp
      have hisl : normISL ('/' :: '/' :: c :: (g2 ++ tl)) = 2 := by
        simp [normISL, hc]
      have hsplit2 : splitSlash ('/' :: '/' :: c :: (g2 ++ tl)) =
          [] :: [] :: (c :: g2) :: t := by
        rw [splitSlash_slash, splitSlash_slash, ← hjoin2, split_join (by simp) hns]
      have hloop : normLoop 2 [] ([] :: [] :: (c :: g2) :: t) = (c :: g2) :: t := by
        have hskip := normLoop_skip_empty 2 2 ((c :: g2) :: t) []
        simpa [List.replicate_succ] using hskip.trans hreplay
      unfold normpathChars
      rw [if_neg hne2, hisl, hsplit2, hloop, hr]

theorem normpathChars_idem (p : List Char) :
    normpathChars (normpathChars p) = normpathChars p := by
  by_cases hp : p = []
  · subst hp; decide
  · have hval : normpathChars p =
        normRender (normISL p) (normLoop (normISL p) [] (splitSlash p)) := by
      unfold normpathChars; rw [if_neg hp]
    have hle : normISL p ≤ 2 := by
      unfold normISL; split_ifs <;> omega
    have hinv := @normLoop_inv (normISL p) (splitSlash p) []
      (by intro g hg; exact absurd hg (List.not_mem_nil g))
      ⟨0, [], rfl, by simp, fun _ => rfl⟩
      (fun g hg => splitSlash_no_slash g hg)
    rw [hval]
    exact normpath_fix hle hinv.1 hinv.2

/-- Normalization is idempotent (spec section 3). -/
theorem normalize_path_idem (p : String) :
    normalize_path (normalize_path p) = normalize_path p :=
  congrArg String.mk (normpathChars_idem p.data)

/-! ### GLOB patterns `literal/*` match exactly the separator-bounded subtree -/

theorem globM_succ_cons (fuel : Nat) (p : Char) (ps s : List Char) :
    globM (fuel + 1) (p :: ps) s =
      if p = '*' then
        globM fuel ps s ||
          (match s with
           | [] => false
           | _ :: s2 => globM fuel (p :: ps) s2)
      else if p = '?' then
        (match s with
         | [] => false
         | _ :: s2 => globM fuel ps s2)
      else if p = '[' then
        (match s with
         | [] => false
         | c :: s2 =>
           match classMatch c ps with
           | some (true, rest) => globM fuel rest s2
           | _ => false)
      else
        (match s with
         | [] => false
         | c :: s2 => p = c && globM fuel ps s2) := rfl

theorem globM_lit_cons {p : Char} (hp1 : p ≠ '*') (hp2 : p ≠ '?') (hp3 : p ≠ '[')
    (fuel : Nat) (ps s : List Char) :
    globM (fuel + 1) (p :: ps) s =
      (match s with
       | [] => false
       | c :: s2 => p = c && globM fuel ps s2) := by
  rw [globM_succ_cons, if_neg hp1, if_neg hp2, if_neg hp3]

theorem globM_star_tail : ∀ (s : List Char) (fuel : Nat), s.length + 1 < fuel →
    globM fuel ['*'] s = true := by
  intro s
  induction s with
  | nil =>
    intro fuel h
    obtain ⟨f, rfl⟩ := Nat.exists_eq_succ_of_ne_zero (by omega : fuel ≠ 0)
    rw [globM_succ_cons, if_pos rfl]
    obtain ⟨f2, rfl⟩ := Nat.exists_eq_succ_of_ne_zero (by omega : f ≠ 0)
    simp [globM]
  | cons d s2 ih =>
    intro fuel h
    obtain ⟨f, rfl⟩ := Nat.exists_eq_succ_of_ne_zero (by omega : fuel ≠ 0)
    rw [globM_succ_cons, if_pos rfl]
    have := ih f (by simp at h ⊢; omega)
    simp [this]

theorem globM_lit_slash_star : ∀ (lp : List Char), (∀ c ∈ lp, c ≠ '*' ∧ c ≠ '?' ∧ c ≠ '[') →
    ∀ (s : List Char) (fuel : Nat), lp.length + s.length + 2 < fuel →
    (globM fuel (lp ++ ['/', '*']) s = true ↔ ∃ suf, s = lp ++ '/' :: suf) := by
  intro lp
  induction lp with
  | nil =>
    intro _ s fuel h
    obtain ⟨f, rfl⟩ := Nat.exists_eq_succ_of_ne_zero (by omega : fuel ≠ 0)
    rw [List.nil_append, globM_lit_cons (by decide) (by decide) (by decide)]
    cases s with
    | nil => simp
    | cons d s2 =>
      constructor
      · intro hm
        simp only [Bool.and_eq_true, decide_eq_true_eq] at hm
        refine ⟨s2, ?_⟩
        rw [← hm.1]
        rfl
      · intro ⟨suf, hsuf⟩
        injection hsuf with h1 h2
        subst h1; subst h2
        have hstar : globM f ['*'] s2 = true :=
          globM_star_tail s2 f (by simp only [List.length_cons, List.length_nil] at h; omega)
        simp [hstar]
  | cons c lp ih =>
    intro hlit s fuel h
    obtain ⟨f, rfl⟩ := Nat.exists_eq_succ_of_ne_zero (by omega : fuel ≠ 0)
    obtain ⟨hc1, hc2, hc3⟩ := hlit c (List.mem_cons_self c lp)
    rw [List.cons_append, globM_lit_cons hc1 hc2 hc3]
    cases s with
    | nil => simp
    | cons d s2 =>
      have hih := ih (fun q hq => hlit q (List.mem_cons_of_mem c hq)) s2 f
        (by simp only [List.length_cons] at h; omega)
      constructor
      · intro hm
        simp only [Bool.and_eq_true, decide_eq_true_eq] at hm
        obtain ⟨suf, hsuf⟩ := hih.mp hm.2
        exact ⟨suf, by rw [← hm.1, hsuf]; rfl⟩
      · intro ⟨suf, hsuf⟩
        injection hsuf with h1 h2
        subst h1
        have := hih.mpr ⟨suf, h2⟩
        simp [this]

/-- For a wildcard-free `op` (not the root), `path GLOB os.path.join(op, "*")`
holds exactly for the separator-bounded subtree of `op`. -/
theorem globMatch_literal {op s : String} (hlit : GlobLiteral op) (hroot : NotRootLike op) :
    globMatch (joinStar op) s = true ↔ ∃ suf : String, s = op ++ "/" ++ suf := by
  have hjs : joinStar op = op ++ "/*" := by
    unfold joinStar
    rw [if_neg hroot.1, if_neg hroot.2]
  have hdata : (op ++ "/*").data = op.data ++ ['/', '*'] := by
    rw [String.data_append]
  unfold globMatch
  rw [hjs, hdata]
  have hlen : (op.data ++ ['/', '*']).length + s.data.length + 1 =
      op.data.length + s.data.length + 2 + 1 := by
    simp only [List.length_append, List.length_cons, List.length_nil]
    omega
  rw [hlen]
  rw [globM_lit_slash_star op.data hlit s.data _ (by omega)]
  have hslash : ("/" : String).data = ['/'] := rfl
  constructor
  · intro ⟨suf, hsuf⟩
    refine ⟨String.mk suf, ?_⟩
    apply String.ext
    rw [String.data_append, String.data_append, hslash, List.append_assoc]
    exact hsuf
  · intro ⟨suf, hsuf⟩
    refine ⟨suf.data, ?_⟩
    have h2 := congrArg String.data hsuf
    rw [String.data_append, String.data_append, hslash, List.append_assoc] at h2
    exact h2

/-! ### Record-store statement lemmas -/

theorem idsOf_append (l1 l2 : List Record) : idsOf (l1 ++ l2) = idsOf l1 ++ idsOf l2 :=
  List.map_append _ l1 l2

theorem pathsOf_append (l1 l2 : List Record) :
    pathsOf (l1 ++ l2) = pathsOf l1 ++ pathsOf l2 :=
  List.map_append _ l1 l2

theorem mem_idsOf {n : Nat} {l : List Record} : n ∈ idsOf l ↔ ∃ r ∈ l, r.id = n := by
  simp [idsOf]

theorem mem_pathsOf {p : String} {l : List Record} :
    p ∈ pathsOf l ↔ ∃ r ∈ l, r.path = p := by
  simp [pathsOf]

theorem dbInsert_ok {files : List Record} {n : Nat} {p : String} {out : List Record}
    (h : dbInsert files n p = .ok out) :
    out = files ++ [⟨n, p⟩] ∧ n ∉ idsOf files ∧ p ∉ pathsOf files := by
  unfold dbInsert at h
  split_ifs at h with hany
  injection h with h
  simp only [List.any_eq_true, Bool.or_eq_true, beq_iff_eq, not_exists] at hany
  push_neg at hany
  refine ⟨h.symm, ?_, ?_⟩
  · intro hmem
    obtain ⟨r, hr, hrid⟩ := mem_idsOf.mp hmem
    exact (hany r hr).1 hrid
  · intro hmem
    obtain ⟨r, hr, hrp⟩ := mem_pathsOf.mp hmem
    exact (hany r hr).2 hrp

theorem dbInsert_err {files : List Record} {n : Nat} {p : String} {e : Err}
    (h : dbInsert files n p = .error e) : e = .integrityError := by
  unfold dbInsert at h
  split_ifs at h
  injection h with h
  exact h.symm

theorem dbInsert_ok_of {files : List Record} {n : Nat} {p : String}
    (hn : n ∉ idsOf files) (hp : p ∉ pathsOf files) :
    dbInsert files n p = .ok (files ++ [⟨n, p⟩]) := by
  unfold dbInsert
  rw [if_neg]
  simp only [List.any_eq_true, Bool.or_eq_true, beq_iff_eq, not_exists]
  push_neg
  intro r hr
  exact ⟨fun h => hn (mem_idsOf.mpr ⟨r, hr, h⟩), fun h => hp (mem_pathsOf.mpr ⟨r, hr, h⟩)⟩

theorem dbUpdateGo_cons (pred : Record → Bool) (f : Record → Record)
    (done : List Record) (r : Record) (rest : List Record) :
    dbUpdateGo pred f done (r :: rest) =
      if pred r then
        (if (done ++ rest).any (fun q => q.id == (f r).id || q.path == (f r).path) then
          .error .integrityError
        else dbUpdateGo pred f (done ++ [f r]) rest)
      else dbUpdateGo pred f (done ++ [r]) rest := rfl

theorem dbUpdateGo_ok_map {pred : Record → Bool} {f : Record → Record} :
    ∀ {rest done out : List Record}, dbUpdateGo pred f done rest = .ok out →
      out = done ++ rest.map (fun r => if pred r then f r else r) := by
  intro rest
  induction rest with
  | nil =>
    intro done out h
    injection h with h
    simp [h.symm]
  | cons r rest ih =>
    intro done out h
    rw [dbUpdateGo_cons] at h
    split_ifs at h with hpred hany
    · rw [ih h, List.append_assoc]
      simp [hpred]
    · rw [ih h, List.append_assoc]
      simp [hpred]

theorem dbUpdateGo_err {pred : Record → Bool} {f : Record → Record} :
    ∀ {rest done : List Record} {e : Err}, dbUpdateGo pred f done rest = .error e →
      e = .integrityError := by
  intro rest
  induction rest with
  | nil => intro done e h; exact absurd h (by simp [dbUpdateGo])
  | cons r rest ih =>
    intro done e h
    rw [dbUpdateGo_cons] at h
    split_ifs at h with hpred hany
    · injection h with h; exact h.symm
    · exact ih h
    · exact ih h

theorem dbUpdateGo_nodup {pred : Record → Bool} {f : Record → Record} :
    ∀ {rest done out : List Record}, dbUpdateGo pred f done rest = .ok out →
      (idsOf (done ++ rest)).Nodup → (pathsOf (done ++ rest)).Nodup →
      (idsOf out).Nodup ∧ (pathsOf out).Nodup := by
  intro rest
  induction rest with
  | nil =>
    intro done out h h1 h2
    injection h with h
    subst h
    rw [List.append_nil] at h1 h2
    exact ⟨h1, h2⟩
  | cons r rest ih =>
    intro done out h h1 h2
    rw [dbUpdateGo_cons] at h
    split_ifs at h with hpred hany
    · simp only [List.any_eq_true, Bool.or_eq_true, beq_iff_eq, not_exists] at hany
      push_neg at hany
      apply ih h
      · rw [idsOf_append]
        have h1m : ((f r).id :: (idsOf done ++ idsOf rest)).Nodup := by
          constructor
          · intro b hb hbeq
            rcases List.mem_append.mp hb with hmem | hmem
            · obtain ⟨q, hq, hqid⟩ := mem_idsOf.mp hmem
              exact (hany q (List.mem_append_left _ hq)).1 (hqid.trans hbeq.symm)
            · obtain ⟨q, hq, hqid⟩ := mem_idsOf.mp hmem
              exact (hany q (List.mem_append_right _ hq)).1 (hqid.trans hbeq.symm)
          · have hmid := (List.nodup_middle).mp (by simpa [idsOf] using h1)
            exact hmid.of_cons
        have hfin := (@List.nodup_middle _ ((f r).id)
          (idsOf done) (idsOf rest)).mpr h1m
        simpa [idsOf] using hfin
      · rw [pathsOf_append]
        have h2m : ((f r).path :: (pathsOf done ++ pathsOf rest)).Nodup := by
          constructor
          · intro b hb hbeq
            rcases List.mem_append.mp hb with hmem | hmem
            · obtain ⟨q, hq, hqp⟩ := mem_pathsOf.mp hmem
              exact (hany q (List.mem_append_left _ hq)).2 (hqp.trans hbeq.symm)
            · obtain ⟨q, hq, hqp⟩ := mem_pathsOf.mp hmem
              exact (hany q (List.mem_append_right _ hq)).2 (hqp.trans hbeq.symm)
          · have hmid := (List.nodup_middle).mp (by simpa [pathsOf] using h2)
            exact hmid.of_cons
        have hfin := (@List.nodup_middle _ ((f r).path)
          (pathsOf done) (pathsOf rest)).mpr h2m
        simpa [pathsOf] using hfin
    · apply ih h
      · simpa [idsOf, List.append_assoc] using h1
      · simpa [pathsOf, List.append_assoc] using h2

/-! ### Operation-level lemmas -/

theorem nodup_snoc {α : Type} {l : List α} {a : α} (hl : l.Nodup) (ha : a ∉ l) :
    (l ++ [a]).Nodup := by
  rw [List.nodup_append]
  exact ⟨hl, List.nodup_singleton a, by simpa [List.disjoint_singleton] using ha⟩

theorem get_id_none_iff {st : FIM} {p : String} :
    get_id st p = none ↔ ∀ r ∈ st.files, r.path ≠ normalize_path p := by
  simp only [get_id]
  constructor
  · intro h r hr hrp
    rcases hfind : st.files.find? (fun q => q.path == normalize_path p) with _ | q
    · have := List.find?_eq_none.mp hfind r hr
      simp [hrp] at this
    · rw [hfind] at h
      simp at h
  · intro hall
    rcases hfind : st.files.find? (fun q => q.path == normalize_path p) with _ | q
    · rw [hfind]
    · have hmem := List.mem_of_find?_eq_some hfind
      have hpred := List.find?_some hfind
      simp only [beq_iff_eq] at hpred
      exact absurd hpred (hall q hmem)

theorem get_id_some {st : FIM} {p : String} {i : String}
    (h : get_id st p = some i) :
    ∃ r, st.files.find? (fun q => q.path == normalize_path p) = some r ∧
      r ∈ st.files ∧ r.path = normalize_path p ∧ i = uuidStr r.id := by
  simp only [get_id] at h
  rcases hfind : st.files.find? (fun q => q.path == normalize_path p) with _ | r
  · rw [hfind] at h; exact absurd h (by simp)
  · rw [hfind] at h
    injection h with h
    refine ⟨r, hfind, List.mem_of_find?_eq_some hfind, ?_, h.symm⟩
    have := List.find?_some hfind
    simpa using this

theorem get_id_find {st : FIM} {p : String} {r : Record}
    (h : st.files.find? (fun q => q.path == normalize_path p) = some r) :
    get_id st p = some (uuidStr r.id) := by
  simp only [get_id]
  rw [h]

/-- `_index` spelled out: the fresh insert and its constraint checks. -/
theorem _index_ok {st : FIM} {p i : String} {st' : FIM}
    (h : _index st p = .ok (i, st')) :
    i = uuidStr (st.gen st.ctr) ∧
    st'.files = st.files ++ [⟨st.gen st.ctr, p⟩] ∧
    st'.gen = st.gen ∧ st'.ctr = st.ctr + 1 ∧
    st.gen st.ctr ∉ idsOf st.files ∧ p ∉ pathsOf st.files := by
  simp only [_index] at h
  rcases hins : dbInsert st.files (st.gen st.ctr) p with e | files2
  · rw [hins] at h; exact absurd h (by simp)
  · rw [hins] at h
    obtain ⟨hout, hid, hpath⟩ := dbInsert_ok hins
    simp only [Except.ok.injEq, Prod.mk.injEq] at h
    obtain ⟨h1, h2⟩ := h
    subst h2
    exact ⟨h1.symm, by rw [← hout], rfl, rfl, hid, hpath⟩

theorem _index_err {st : FIM} {p : String} {e : Err}
    (h : _index st p = .error e) : e = .integrityError := by
  simp only [_index] at h
  rcases hins : dbInsert st.files (st.gen st.ctr) p with e2 | files2
  · rw [hins] at h
    simp only [Except.error.injEq] at h
    exact h ▸ dbInsert_err hins
  · rw [hins] at h
    exact absurd h (by simp)

theorem _index_ok_of {st : FIM} {p : String}
    (hid : st.gen st.ctr ∉ idsOf st.files) (hpath : p ∉ pathsOf st.files) :
    _index st p = .ok (uuidStr (st.gen st.ctr),
      ⟨st.files ++ [⟨st.gen st.ctr, p⟩], st.gen, st.ctr + 1⟩) := by
  simp only [_index]
  rw [dbInsert_ok_of hid hpath]

theorem index_err {st : FIM} {p : String} {e : Err}
    (h : index st p = .error e) : e = .integrityError := by
  simp only [index] at h
  rcases hg : get_id st (normalize_path p) with _ | fid
  · rw [hg] at h
    exact _index_err h
  · rw [hg] at h
    exact absurd h (by simp)

theorem index_ok_shape {st : FIM} {p i : String} {st' : FIM}
    (h : index st p = .ok (i, st')) :
    (get_id st (normalize_path p) = some i ∧ st' = st) ∨
    (get_id st (normalize_path p) = none ∧
      i = uuidStr (st.gen st.ctr) ∧
      st'.files = st.files ++ [⟨st.gen st.ctr, normalize_path p⟩] ∧
      st'.gen = st.gen ∧ st'.ctr = st.ctr + 1 ∧
      st.gen st.ctr ∉ idsOf st.files ∧ normalize_path p ∉ pathsOf st.files) := by
  simp only [index] at h
  rcases hg : get_id st (normalize_path p) with _ | fid
  · rw [hg] at h
    exact Or.inr ⟨rfl, _index_ok h⟩
  · rw [hg] at h
    simp only [Except.ok.injEq, Prod.mk.injEq] at h
    obtain ⟨h1, h2⟩ := h
    subst h1
    exact Or.inl ⟨rfl, h2.symm⟩


theorem dbInsert_dup_path {files : List Record} {n : Nat} {p : String}
    (hp : p ∈ pathsOf files) : dbInsert files n p = .error .integrityError := by
  unfold dbInsert
  rw [if_pos]
  obtain ⟨r, hr, hrp⟩ := mem_pathsOf.mp hp
  simp only [List.any_eq_true, Bool.or_eq_true, beq_iff_eq]
  exact ⟨r, hr, Or.inr hrp⟩

/-! ### Claims -/

/-- C4: `insert` on a path that (after normalization) already has a record
fails with the store-level uniqueness error (`DuplicatePath`, surfacing as
`sqlite3.IntegrityError`), leaving the store unchanged — provided the
identifier argument itself is not a nonempty malformed string (which would
fail earlier with `InvalidIdentifier`). -/
theorem C4_insert_duplicate_path (st : FIM) (p : String) (fid : FidArg)
    (hfid : ∀ s, fid = .str s → s = "" ∨ (parseUUID s).isSome)
    (hdup : get_id st p ≠ none) :
    insert st p fid = .error .integrityError := by
  have hex : ∃ i, get_id st p = some i := by
    rcases hgi : get_id st p with _ | i
    · exact absurd hgi hdup
    · exact ⟨i, rfl⟩
  obtain ⟨i, hi⟩ := hex
  obtain ⟨r, hfind, hrmem, hrpath, hieq⟩ := get_id_some hi
  have hpmem : normalize_path p ∈ pathsOf st.files :=
    mem_pathsOf.mpr ⟨r, hrmem, hrpath⟩
  rcases fid with _ | s | n
  · simp only [insert, resolveFid]
    rw [dbInsert_dup_path hpmem]
  · have hred : insert st p (.str "") =
        (match dbInsert st.files (st.gen st.ctr) (normalize_path p) with
          | .error e => .error e
          | .ok files2 =>
            .ok (uuidStr (st.gen st.ctr), ⟨files2, st.gen, st.ctr + 1⟩)) := rfl
    rcases hfid s rfl with hse | hsome
    · subst hse
      rw [hred, dbInsert_dup_path hpmem]
    · obtain ⟨n, hn⟩ := Option.isSome_iff_exists.mp hsome
      by_cases hse : s = ""
      · subst hse
        rw [hred, dbInsert_dup_path hpmem]
      · simp only [insert, resolveFid, if_neg hse, hn]
        rw [dbInsert_dup_path hpmem]
  · simp only [insert, resolveFid]
    rw [dbInsert_dup_path hpmem]

/-- C4 witness: the spec scenario — after `insert("x/y.txt", id=5)` has
succeeded, a second `insert("x/y.txt")` fails with the uniqueness error. -/
theorem C4_insert_duplicate_path_witness :
    insert ⟨[⟨5, "x/y.txt"⟩], fun k => k, 0⟩ "x/y.txt" .none =
      .error .integrityError :=
  C4_insert_duplicate_path ⟨[⟨5, "x/y.txt"⟩], fun k => k, 0⟩ "x/y.txt" .none
    (fun s h => FidArg.noConfusion h) (by decide)

/-- C5: `index` is idempotent.  Under the statistical uniqueness of `uuid4`,
`index(p)` always succeeds; a second call returns the same identifier and
leaves the store unchanged, so a third call (the second call again, on an
unchanged state) still returns it.  Holds for every path string thanks to
the idempotence of normalization (`normalize_path_idem`). -/
theorem C5_index_idempotent (st : FIM) (p : String) (hfresh : FreshGen st) :
    ∃ i st1, index st p = .ok (i, st1) ∧ index st1 p = .ok (i, st1) := by
  have hnn := normalize_path_idem p
  rcases hg : get_id st (normalize_path p) with _ | fid
  · have hid : st.gen st.ctr ∉ idsOf st.files := hfresh.1 st.ctr le_rfl
    have hnotin : ∀ r ∈ st.files, r.path ≠ normalize_path p := by
      intro r hr
      have := get_id_none_iff.mp hg r hr
      rwa [hnn] at this
    have hpath : normalize_path p ∉ pathsOf st.files := by
      intro hmem
      obtain ⟨r, hr, hrp⟩ := mem_pathsOf.mp hmem
      exact hnotin r hr hrp
    refine ⟨uuidStr (st.gen st.ctr),
      ⟨st.files ++ [⟨st.gen st.ctr, normalize_path p⟩], st.gen, st.ctr + 1⟩, ?_, ?_⟩
    · simp only [index]
      rw [hg, _index_ok_of hid hpath]
    · have hfind : (st.files ++ [(⟨st.gen st.ctr, normalize_path p⟩ : Record)]).find?
          (fun q => q.path == normalize_path p) =
          some (⟨st.gen st.ctr, normalize_path p⟩ : Record) := by
        rw [List.find?_append]
        have h1 : st.files.find? (fun q => q.path == normalize_path p) = none :=
          List.find?_eq_none.mpr (fun q hq => by
            simp only [beq_iff_eq]
            exact hnotin q hq)
        rw [h1]
        simp [List.find?]
      have hg2 : get_id
          ⟨st.files ++ [⟨st.gen st.ctr, normalize_path p⟩], st.gen, st.ctr + 1⟩
          (normalize_path p) = some (uuidStr (st.gen st.ctr)) := by
        simp only [get_id]
        rw [hnn, hfind]
      simp only [index]
      rw [hg2]
  · refine ⟨fid, st, ?_, ?_⟩ <;>
    · simp only [index]
      rw [hg]

/-- C5 witness on a concrete fresh store. -/
theorem C5_index_idempotent_witness :
    ∃ i st1, index ⟨[], fun k => k, 0⟩ "a/b.txt" = .ok (i, st1) ∧
      index st1 "a/b.txt" = .ok (i, st1) :=
  C5_index_idempotent ⟨[], fun k => k, 0⟩ "a/b.txt"
    ⟨fun k _ => by simp [idsOf], fun j k _ _ h => h⟩

theorem FIM_ext {a b : FIM} (h1 : a.files = b.files) (h2 : a.gen = b.gen)
    (h3 : a.ctr = b.ctr) : a = b := by
  cases a; cases b; simp_all

theorem delete_true_files (st : FIM) (p : String) :
    (delete st p true).files =
      (st.files.filter
        (fun r => !globMatch (joinStar (normalize_path p)) r.path)).filter
        (fun r => !(r.path == normalize_path p)) := rfl

theorem delete_false_files (st : FIM) (p : String) :
    (delete st p false).files =
      st.files.filter (fun r => !(r.path == normalize_path p)) := rfl

/-- C7, counterexample.  First part: with `path = "a[b]"` the sqlite GLOB
pattern `a[b]/*` does *not* match the separator-bounded descendant
`a[b]/c` (the `[b]` is read as a character class), so after
`delete("a[b]", recursive=True)` the descendant is still indexed, contrary
to the claim.  Second part: `delete("a", recursive=True)` where `"a"` was
never indexed is *not* a no-op leaving the store unchanged — it still
removes the indexed descendant `a/b`. -/
theorem C7_counterexample :
    (get_id (delete ⟨[⟨1, "a[b]/c"⟩], fun k => k, 0⟩ "a[b]" true) "a[b]/c" =
      some (uuidStr 1)) ∧
    (get_id (⟨[⟨1, "a/b"⟩], fun k => k, 0⟩ : FIM) "a" = none ∧
      (delete ⟨[⟨1, "a/b"⟩], fun k => k, 0⟩ "a" true).files = []) := by
  refine ⟨?_, ?_, ?_⟩ <;> rfl

/-- C7 (amended): for a normalized, non-root `path` containing no GLOB
wildcard characters, after `delete(path, recursive=True)` neither `path` nor
any separator-bounded descendant is indexed; and deleting a path that has no
record raises no error and leaves the store unchanged — unconditionally when
`recursive=False`, and provided no separator-bounded descendant is indexed
when `recursive=True`. -/
theorem C7_delete_recursive (st : FIM) (p : String)
    (hp : normalize_path p = p) (hlit : GlobLiteral p) (hroot : NotRootLike p) :
    get_id (delete st p true) p = none ∧
    (∀ d, normalize_path d = d → (∃ suf, d = p ++ "/" ++ suf) →
      get_id (delete st p true) d = none) ∧
    (∀ rec : Bool, get_id st p = none →
      (rec = true → ∀ r ∈ st.files, ¬ ∃ suf : String, r.path = p ++ "/" ++ suf) →
      delete st p rec = st) := by
  refine ⟨?_, ?_, ?_⟩
  · apply get_id_none_iff.mpr
    intro r hr
    rw [hp]
    rw [delete_true_files, hp] at hr
    have hr2 := (List.mem_filter.mp hr).2
    simpa using hr2
  · intro d hd hsufex
    obtain ⟨suf, hsuf⟩ := hsufex
    apply get_id_none_iff.mpr
    intro r hr
    rw [hd]
    rw [delete_true_files, hp] at hr
    have hr1 := (List.mem_filter.mp hr).1
    have hrg := (List.mem_filter.mp hr1).2
    intro hrp
    have hmatch : globMatch (joinStar p) r.path = true :=
      (globMatch_literal hlit hroot).mpr ⟨suf, by rw [hrp, hsuf]⟩
    simp [hmatch] at hrg
  · intro rec hnone hnodesc
    have hne : ∀ r ∈ st.files, (!(r.path == p)) = true := by
      intro r hr
      have := get_id_none_iff.mp hnone r hr
      rw [hp] at this
      simpa using this
    have hfiles : (delete st p rec).files = st.files := by
      cases rec
      · rw [delete_false_files, hp, List.filter_eq_self.mpr hne]
      · have hng : ∀ r ∈ st.files, (!globMatch (joinStar p) r.path) = true := by
          intro r hr
          have hnm : globMatch (joinStar p) r.path = false := by
            rcases hb : globMatch (joinStar p) r.path
            · rfl
            · obtain ⟨suf, hsuf⟩ := (globMatch_literal hlit hroot).mp hb
              exact absurd ⟨suf, hsuf⟩ (hnodesc rfl r hr)
          simp [hnm]
        rw [delete_true_files, hp, List.filter_eq_self.mpr hng,
          List.filter_eq_self.mpr hne]
    exact FIM_ext hfiles rfl rfl

/-- C7 witness: a concrete recursive delete removing a subtree, plus the
no-op case on an unindexed path. -/
theorem C7_delete_recursive_witness :
    get_id (delete ⟨[⟨1, "a"⟩, ⟨2, "a/b"⟩], fun k => k, 0⟩ "a" true) "a" = none ∧
    (∀ d, normalize_path d = d → (∃ suf, d = "a" ++ "/" ++ suf) →
      get_id (delete ⟨[⟨1, "a"⟩, ⟨2, "a/b"⟩], fun k => k, 0⟩ "a" true) d = none) ∧
    (∀ rec : Bool,
      get_id (⟨[⟨1, "a"⟩, ⟨2, "a/b"⟩], fun k => k, 0⟩ : FIM) "zzz" = none →
      (rec = true → ∀ r ∈ (⟨[⟨1, "a"⟩, ⟨2, "a/b"⟩], fun k => k, 0⟩ : FIM).files,
        ¬ ∃ suf : String, r.path = "zzz" ++ "/" ++ suf) →
      delete ⟨[⟨1, "a"⟩, ⟨2, "a/b"⟩], fun k => k, 0⟩ "zzz" rec =
        ⟨[⟨1, "a"⟩, ⟨2, "a/b"⟩], fun k => k, 0⟩) := by
  refine ⟨?_, ?_, ?_⟩
  · exact (C7_delete_recursive ⟨[⟨1, "a"⟩, ⟨2, "a/b"⟩], fun k => k, 0⟩ "a"
      (by rfl) (by decide) (by decide)).1
  · exact (C7_delete_recursive ⟨[⟨1, "a"⟩, ⟨2, "a/b"⟩], fun k => k, 0⟩ "a"
      (by rfl) (by decide) (by decide)).2.1
  · exact (C7_delete_recursive ⟨[⟨1, "a"⟩, ⟨2, "a/b"⟩], fun k => k, 0⟩ "zzz"
      (by rfl) (by decide) (by decide)).2.2

/-! ### Shapes of the mutating operations, and invariant preservation -/

theorem insert_none_red (st : FIM) (p : String) :
    insert st p .none =
      (match dbInsert st.files (st.gen st.ctr) (normalize_path p) with
        | .error e => .error e
        | .ok files2 =>
          .ok (uuidStr (st.gen st.ctr), ⟨files2, st.gen, st.ctr + 1⟩)) := rfl

theorem insert_emptystr_red (st : FIM) (p : String) :
    insert st p (.str "") =
      (match dbInsert st.files (st.gen st.ctr) (normalize_path p) with
        | .error e => .error e
        | .ok files2 =>
          .ok (uuidStr (st.gen st.ctr), ⟨files2, st.gen, st.ctr + 1⟩)) := rfl

theorem insert_uuid_red (st : FIM) (p : String) (n : Nat) :
    insert st p (.uuid n) =
      (match dbInsert st.files n (normalize_path p) with
        | .error e => .error e
        | .ok files2 => .ok (uuidStr n, ⟨files2, st.gen, st.ctr⟩)) := rfl

theorem insert_str_red (st : FIM) (p s : String) (hs : s ≠ "") :
    insert st p (.str s) =
      (match parseUUID s with
        | none => .error .invalidIdentifier
        | some n =>
          match dbInsert st.files n (normalize_path p) with
          | .error e => .error e
          | .ok files2 => .ok (uuidStr n, ⟨files2, st.gen, st.ctr⟩)) := by
  simp only [insert, resolveFid, if_neg hs]
  rcases hp : parseUUID s with _ | n <;> rfl

theorem insert_ok_shape {st : FIM} {p : String} {fid : FidArg} {i : String} {st' : FIM}
    (h : insert st p fid = .ok (i, st')) :
    ∃ n, i = uuidStr n ∧ st'.files = st.files ++ [⟨n, normalize_path p⟩] ∧
      st'.gen = st.gen ∧ n ∉ idsOf st.files ∧ normalize_path p ∉ pathsOf st.files ∧
      (n = st.gen st.ctr ∨ (∃ s, fid = .str s ∧ parseUUID s = some n) ∨
        fid = .uuid n) := by
  have hfin : ∀ (n : Nat) (hred : insert st p fid =
      (match dbInsert st.files n (normalize_path p) with
        | .error e => .error e
        | .ok files2 => .ok (uuidStr n, ⟨files2, st.gen, st.ctr⟩)) ∨
      insert st p fid =
      (match dbInsert st.files n (normalize_path p) with
        | .error e => .error e
        | .ok files2 => .ok (uuidStr n, ⟨files2, st.gen, st.ctr + 1⟩))),
      i = uuidStr n ∧ st'.files = st.files ++ [⟨n, normalize_path p⟩] ∧
        st'.gen = st.gen ∧ n ∉ idsOf st.files ∧ normalize_path p ∉ pathsOf st.files := by
    intro n hred
    rcases hins : dbInsert st.files n (normalize_path p) with e | files2
    · rcases hred with hred | hred <;>
      · rw [hred, hins] at h
        exact absurd h (by simp)
    · obtain ⟨hout, hn, hpth⟩ := dbInsert_ok hins
      rcases hred with hred | hred <;>
      · rw [hred, hins] at h
        simp only [Except.ok.injEq, Prod.mk.injEq] at h
        obtain ⟨h1, h2⟩ := h
        subst h2
        exact ⟨h1.symm, by rw [← hout], rfl, hn, hpth⟩
    -- done
  rcases fid with _ | s | n
  · obtain ⟨h1, h2, h3, h4, h5⟩ := hfin (st.gen st.ctr) (Or.inr (insert_none_red st p))
    exact ⟨st.gen st.ctr, h1, h2, h3, h4, h5, Or.inl rfl⟩
  · by_cases hse : s = ""
    · subst hse
      obtain ⟨h1, h2, h3, h4, h5⟩ :=
        hfin (st.gen st.ctr) (Or.inr (insert_emptystr_red st p))
      exact ⟨st.gen st.ctr, h1, h2, h3, h4, h5, Or.inl rfl⟩
    · rcases hp : parseUUID s with _ | n
      · rw [insert_str_red st p s hse, hp] at h
        exact absurd h (by simp)
      · have hred : insert st p (.str s) =
            (match dbInsert st.files n (normalize_path p) with
              | .error e => .error e
              | .ok files2 => .ok (uuidStr n, ⟨files2, st.gen, st.ctr⟩)) := by
          rw [insert_str_red st p s hse, hp]
        obtain ⟨h1, h2, h3, h4, h5⟩ := hfin n (Or.inl hred)
        exact ⟨n, h1, h2, h3, h4, h5, Or.inr (Or.inl ⟨s, rfl, hp⟩)⟩
  · obtain ⟨h1, h2, h3, h4, h5⟩ := hfin n (Or.inl (insert_uuid_red st p n))
    exact ⟨n, h1, h2, h3, h4, h5, Or.inr (Or.inr rfl)⟩

theorem wf_snoc {files : List Record} {n : Nat} {p : String}
    (h1 : (idsOf files).Nodup) (h2 : (pathsOf files).Nodup)
    (hn : n ∉ idsOf files) (hp : p ∉ pathsOf files) :
    (idsOf (files ++ [⟨n, p⟩])).Nodup ∧ (pathsOf (files ++ [⟨n, p⟩])).Nodup := by
  constructor
  · rw [idsOf_append]
    exact nodup_snoc h1 (by simpa [idsOf] using hn)
  · rw [pathsOf_append]
    exact nodup_snoc h2 (by simpa [pathsOf] using hp)

theorem wf_index {st : FIM} {p i : String} {st' : FIM}
    (h : index st p = .ok (i, st')) (hwf : WF st) : WF st' := by
  rcases index_ok_shape h with ⟨_, rfl⟩ | ⟨_, _, hfiles, _, _, hid, hpath⟩
  · exact hwf
  · have := wf_snoc hwf.1 hwf.2 hid hpath
    exact ⟨by rw [hfiles]; exact this.1, by rw [hfiles]; exact this.2⟩

theorem wf__index {st : FIM} {p i : String} {st' : FIM}
    (h : _index st p = .ok (i, st')) (hwf : WF st) : WF st' := by
  obtain ⟨_, hfiles, _, _, hid, hpath⟩ := _index_ok h
  have := wf_snoc hwf.1 hwf.2 hid hpath
  exact ⟨by rw [hfiles]; exact this.1, by rw [hfiles]; exact this.2⟩

theorem wf_insert {st : FIM} {p : String} {fid : FidArg} {i : String} {st' : FIM}
    (h : insert st p fid = .ok (i, st')) (hwf : WF st) : WF st' := by
  obtain ⟨n, _, hfiles, _, hid, hpath, _⟩ := insert_ok_shape h
  have := wf_snoc hwf.1 hwf.2 hid hpath
  exact ⟨by rw [hfiles]; exact this.1, by rw [hfiles]; exact this.2⟩

theorem wf_delete (st : FIM) (p : String) (rec : Bool) (hwf : WF st) :
    WF (delete st p rec) := by
  have hsub : List.Sublist (delete st p rec).files st.files := by
    cases rec
    · rw [delete_false_files]
      exact List.filter_sublist st.files
    · rw [delete_true_files]
      exact (List.filter_sublist _).trans (List.filter_sublist st.files)
  exact ⟨hwf.1.sublist (hsub.map _), hwf.2.sublist (hsub.map _)⟩

theorem move_shape {st : FIM} {op np : String} {rec : Bool} {i : String} {st' : FIM}
    (h : move st op np rec = .ok (i, st')) :
    ∃ files1,
      (if rec then moveRecUpdate st.files (normalize_path op) (normalize_path np)
       else Except.ok st.files) = .ok files1 ∧
      st'.gen = st.gen ∧
      ((get_id ⟨files1, st.gen, st.ctr⟩ (normalize_path op) = none ∧
        i = uuidStr (st.gen st.ctr) ∧ st'.ctr = st.ctr + 1 ∧
        dbInsert files1 (st.gen st.ctr) (normalize_path np) = .ok st'.files) ∨
       (∃ m, get_id ⟨files1, st.gen, st.ctr⟩ (normalize_path op) = some i ∧
         parseUUID i = some m ∧ st'.ctr = st.ctr ∧
         dbUpdate files1 (fun r => r.id == m)
           (fun r => ⟨r.id, normalize_path np⟩) = .ok st'.files)) := by
  simp only [move] at h
  rcases hmid : (if rec then moveRecUpdate st.files (normalize_path op) (normalize_path np)
      else Except.ok st.files) with e | files1
  · rw [hmid] at h
    exact absurd h (by simp)
  · rw [hmid] at h
    replace h : ((match get_id ⟨files1, st.gen, st.ctr⟩ (normalize_path op) with
        | none =>
          match dbInsert files1 (st.gen st.ctr) (normalize_path np) with
          | .error e => .error e
          | .ok files2 =>
            .ok (uuidStr (st.gen st.ctr), (⟨files2, st.gen, st.ctr + 1⟩ : FIM))
        | some fid =>
          match parseUUID fid with
          | none => .error .invalidIdentifier
          | some m =>
            match dbUpdate files1 (fun r => r.id == m)
                (fun r => ⟨r.id, normalize_path np⟩) with
            | .error e => .error e
            | .ok files2 => .ok (fid, (⟨files2, st.gen, st.ctr⟩ : FIM))) :
          Except Err (String × FIM)) =
        .ok (i, st') := h
    refine ⟨files1, rfl, ?_⟩
    rcases hg : get_id ⟨files1, st.gen, st.ctr⟩ (normalize_path op) with _ | fid
    · rw [hg] at h
      rcases hins : dbInsert files1 (st.gen st.ctr) (normalize_path np) with e | files2
      · rw [hins] at h
        exact absurd h (by simp)
      · rw [hins] at h
        simp only [Except.ok.injEq, Prod.mk.injEq] at h
        obtain ⟨h1, h2⟩ := h
        subst h2
        exact ⟨rfl, Or.inl ⟨rfl, h1.symm, rfl, rfl⟩⟩
    · rw [hg] at h
      replace h : ((match parseUUID fid with
          | none => .error .invalidIdentifier
          | some m =>
            match dbUpdate files1 (fun r => r.id == m)
                (fun r => ⟨r.id, normalize_path np⟩) with
            | .error e => .error e
            | .ok files2 => .ok (fid, (⟨files2, st.gen, st.ctr⟩ : FIM))) :
          Except Err (String × FIM)) = .ok (i, st') := h
      rcases hp : parseUUID fid with _ | m
      · rw [hp] at h
        exact absurd h (by simp)
      · rw [hp] at h
        replace h : ((match dbUpdate files1 (fun r => r.id == m)
              (fun r => ⟨r.id, normalize_path np⟩) with
            | .error e => .error e
            | .ok files2 => .ok (fid, (⟨files2, st.gen, st.ctr⟩ : FIM))) :
            Except Err (String × FIM)) = .ok (i, st') := h
        rcases hupd : dbUpdate files1 (fun r => r.id == m)
            (fun r => ⟨r.id, normalize_path np⟩) with e | files2
        · rw [hupd] at h
          exact absurd h (by simp)
        · rw [hupd] at h
          simp only [Except.ok.injEq, Prod.mk.injEq] at h
          obtain ⟨h1, h2⟩ := h
          subst h1
          subst h2
          exact ⟨rfl, Or.inr ⟨m, rfl, hp, rfl, hupd⟩⟩

theorem wf_move {st : FIM} {op np : String} {rec : Bool} {i : String} {st' : FIM}
    (h : move st op np rec = .ok (i, st')) (hwf : WF st) : WF st' := by
  obtain ⟨files1, hmid, hgen, hrest⟩ := move_shape h
  have hwf1 : (idsOf files1).Nodup ∧ (pathsOf files1).Nodup := by
    cases rec
    · rw [if_neg (by decide : ¬(false = true))] at hmid
      injection hmid with hmid
      rw [← hmid]
      exact ⟨hwf.1, hwf.2⟩
    · rw [if_pos (rfl : (true = true))] at hmid
      have h1 : (idsOf ([] ++ st.files)).Nodup := by
        rw [List.nil_append]; exact hwf.1
      have h2 : (pathsOf ([] ++ st.files)).Nodup := by
        rw [List.nil_append]; exact hwf.2
      exact dbUpdateGo_nodup hmid h1 h2
  rcases hrest with ⟨_, _, _, hins⟩ | ⟨m, _, _, _, hupd⟩
  · obtain ⟨hout, hid, hpath⟩ := dbInsert_ok hins
    have := wf_snoc hwf1.1 hwf1.2 hid hpath
    exact ⟨by rw [hout]; exact this.1, by rw [hout]; exact this.2⟩
  · have h1 : (idsOf ([] ++ files1)).Nodup := by
      rw [List.nil_append]; exact hwf1.1
    have h2 : (pathsOf ([] ++ files1)).Nodup := by
      rw [List.nil_append]; exact hwf1.2
    exact dbUpdateGo_nodup hupd h1 h2

theorem bulkGo_shape {tp : String} {L : Nat} :
    ∀ {rows : List Record} {st st' : FIM}, bulkGo tp L st rows = .ok st' →
      st'.gen = st.gen ∧ st.ctr ≤ st'.ctr ∧
      st.files <+: st'.files ∧
      (∀ r' ∈ st'.files, r' ∈ st.files ∨
        ∃ k, st.ctr ≤ k ∧ k < st'.ctr ∧ r'.id = st.gen k) ∧
      (∀ r ∈ rows, ∃ k, st.ctr ≤ k ∧ k < st'.ctr ∧
        (⟨st.gen k, tp ++ sqlSubstr r.path (L + 1)⟩ : Record) ∈ st'.files) := by
  intro rows
  induction rows with
  | nil =>
    intro st st' h
    simp only [bulkGo] at h
    injection h with h
    subst h
    exact ⟨rfl, le_rfl, List.prefix_refl _, fun r' hr' => Or.inl hr',
      fun r hr => absurd hr (List.not_mem_nil r)⟩
  | cons r rows ih =>
    intro st st' h
    simp only [bulkGo] at h
    rcases hins : dbInsert st.files (st.gen st.ctr)
        (tp ++ sqlSubstr r.path (L + 1)) with e | files2
    · rw [hins] at h
      exact absurd h (by simp)
    · rw [hins] at h
      obtain ⟨hout, hid, hpath⟩ := dbInsert_ok hins
      obtain ⟨hgen, hctr, hpre, hids, hrows⟩ :=
        @ih ⟨files2, st.gen, st.ctr + 1⟩ st' h
      dsimp only at hgen hctr hpre hids hrows
      refine ⟨hgen, by omega, ?_, ?_, ?_⟩
      · refine List.IsPrefix.trans ?_ hpre
        rw [hout]
        exact List.prefix_append st.files _
      · intro r' hr'
        rcases hids r' hr' with hmem | ⟨k, hk1, hk2, hk3⟩
        · rw [hout] at hmem
          rcases List.mem_append.mp hmem with hmem | hmem
          · exact Or.inl hmem
          · refine Or.inr ⟨st.ctr, le_rfl, by omega, ?_⟩
            have : r' = ⟨st.gen st.ctr, tp ++ sqlSubstr r.path (L + 1)⟩ := by
              simpa using hmem
            rw [this]
        · exact Or.inr ⟨k, by omega, hk2, hk3⟩
      · intro q hq
        rcases List.mem_cons.mp hq with hq | hq
        · subst hq
          refine ⟨st.ctr, le_rfl, by omega, ?_⟩
          apply hpre.subset
          rw [hout]
          exact List.mem_append_right _ (List.mem_cons_self _ _)
        · obtain ⟨k, hk1, hk2, hk3⟩ := hrows q hq
          exact ⟨k, by omega, hk2, hk3⟩

theorem bulkGo_nodup {tp : String} {L : Nat} :
    ∀ {rows : List Record} {st st' : FIM}, bulkGo tp L st rows = .ok st' →
      (idsOf st.files).Nodup → (pathsOf st.files).Nodup →
      (idsOf st'.files).Nodup ∧ (pathsOf st'.files).Nodup := by
  intro rows
  induction rows with
  | nil =>
    intro st st' h h1 h2
    simp only [bulkGo] at h
    injection h with h
    subst h
    exact ⟨h1, h2⟩
  | cons r rows ih =>
    intro st st' h h1 h2
    simp only [bulkGo] at h
    rcases hins : dbInsert st.files (st.gen st.ctr)
        (tp ++ sqlSubstr r.path (L + 1)) with e | files2
    · rw [hins] at h
      exact absurd h (by simp)
    · rw [hins] at h
      obtain ⟨hout, hid, hpath⟩ := dbInsert_ok hins
      have hw := wf_snoc h1 h2 hid hpath
      exact @ih ⟨files2, st.gen, st.ctr + 1⟩ st' h
        (by rw [hout] at *; exact hw.1) (by rw [hout] at *; exact hw.2)

theorem bulkGo_err {tp : String} {L : Nat} :
    ∀ {rows : List Record} {st : FIM} {e : Err}, bulkGo tp L st rows = .error e →
      e = .integrityError := by
  intro rows
  induction rows with
  | nil => intro st e h; exact absurd h (by simp [bulkGo])
  | cons r rows ih =>
    intro st e h
    simp only [bulkGo] at h
    rcases hins : dbInsert st.files (st.gen st.ctr)
        (tp ++ sqlSubstr r.path (L + 1)) with e2 | files2
    · rw [hins] at h
      injection h with h
      exact h ▸ dbInsert_err hins
    · rw [hins] at h
      exact ih h

theorem copy_shape {st : FIM} {fp tp : String} {rec : Bool} {ret : String} {st' : FIM}
    (h : copy st fp tp rec = .ok (ret, st')) :
    ∃ st1 i1 st2,
      (if rec then bulkCopyInsert st (normalize_path fp) (normalize_path tp)
       else Except.ok st) = .ok st1 ∧
      index st1 (normalize_path fp) = .ok (i1, st2) ∧
      _index st2 (normalize_path tp) = .ok (ret, st') := by
  simp only [copy] at h
  rcases hbulk : (if rec then bulkCopyInsert st (normalize_path fp) (normalize_path tp)
      else Except.ok st) with e | st1
  · rw [hbulk] at h
    exact absurd h (by simp)
  · rw [hbulk] at h
    replace h : ((match index st1 (normalize_path fp) with
        | .error e => .error e
        | .ok (fst, st2) => _index st2 (normalize_path tp)) :
        Except Err (String × FIM)) = .ok (ret, st') := h
    rcases hidx : index st1 (normalize_path fp) with e | pr
    · rw [hidx] at h
      exact absurd h (by simp)
    · rw [hidx] at h
      obtain ⟨i1, st2⟩ := pr
      exact ⟨st1, i1, st2, rfl, hidx, h⟩

theorem wf_copy {st : FIM} {fp tp : String} {rec : Bool} {ret : String} {st' : FIM}
    (h : copy st fp tp rec = .ok (ret, st')) (hwf : WF st) : WF st' := by
  obtain ⟨st1, i1, st2, hbulk, hidx, hlast⟩ := copy_shape h
  have hwf1 : WF st1 := by
    cases rec
    · rw [if_neg (by decide : ¬(false = true))] at hbulk
      injection hbulk with hbulk
      rw [← hbulk]
      exact hwf
    · rw [if_pos (rfl : (true = true))] at hbulk
      exact bulkGo_nodup hbulk hwf.1 hwf.2
  exact wf__index hlast (wf_index hidx hwf1)

/-- C9: the store invariant — at most one record per identifier and at most
one record per path, i.e. the identifier↔path relation is a bijection
between the identifiers and paths present — is preserved by every public
operation that returns successfully: `index`, `insert`, `move`, `copy`, and
`delete` (which always succeeds).  `get_id` and `get_path` take the state
and return only a value, never a new state, so they preserve the invariant
by their very type. -/
theorem C9_invariants (st : FIM) (p q op np fp tp : String) (fid : FidArg) (rec : Bool)
    (hwf : WF st) :
    (∀ i st', index st p = .ok (i, st') → WF st') ∧
    (∀ i st', insert st p fid = .ok (i, st') → WF st') ∧
    (∀ i st', move st op np rec = .ok (i, st') → WF st') ∧
    (∀ i st', copy st fp tp rec = .ok (i, st') → WF st') ∧
    WF (delete st q rec) :=
  ⟨fun _ _ h => wf_index h hwf, fun _ _ h => wf_insert h hwf,
   fun _ _ h => wf_move h hwf, fun _ _ h => wf_copy h hwf,
   wf_delete st q rec hwf⟩


/-- C9 witness: the invariant after a concrete recursive delete, via
`C9_invariants` at a concrete well-formed store. -/
theorem C9_invariants_witness :
    WF (delete ⟨[⟨1, "a"⟩, ⟨2, "a/b"⟩], fun k => k, 0⟩ "a" true) :=
  (C9_invariants ⟨[⟨1, "a"⟩, ⟨2, "a/b"⟩], fun k => k, 0⟩
    "p" "a" "op" "np" "fp" "tp" .none true
    ⟨by decide, by decide⟩).2.2.2.2

/-- C10: when `to_path` already has a record, `copy` does not return the
existing identifier — it fails with the store uniqueness-constraint error
(`sqlite3.IntegrityError`).  The final `_index(to_path)` inserts the
destination path unconditionally, and any earlier failure of the recursive
bulk insert or of `index(from_path)` is the same uniqueness error. -/
theorem C10_copy_existing_destination (st : FIM) (fp tp : String) (rec : Bool)
    (hdup : get_id st tp ≠ none) :
    copy st fp tp rec = .error .integrityError := by
  have hex : ∃ i, get_id st tp = some i := by
    rcases h : get_id st tp with _ | i
    · exact absurd h hdup
    · exact ⟨i, rfl⟩
  obtain ⟨i, hi⟩ := hex
  obtain ⟨r, hfind, hrmem, hrpath, -⟩ := get_id_some hi
  simp only [copy]
  rcases hbulk : (if rec then bulkCopyInsert st (normalize_path fp) (normalize_path tp)
      else Except.ok st) with e | st1
  · have he : e = .integrityError := by
      cases rec
      · rw [if_neg (by decide : ¬(false = true))] at hbulk
        exact absurd hbulk (by simp)
      · rw [if_pos (rfl : (true = true))] at hbulk
        exact bulkGo_err hbulk
    rw [he]
  · have hsub1 : ∀ q ∈ st.files, q ∈ st1.files := by
      cases rec
      · rw [if_neg (by decide : ¬(false = true))] at hbulk
        injection hbulk with hbulk
        intro q hq
        rw [← hbulk]
        exact hq
      · rw [if_pos (rfl : (true = true))] at hbulk
        intro q hq
        exact (bulkGo_shape hbulk).2.2.1.subset hq
    show ((match index st1 (normalize_path fp) with
        | .error e => .error e
        | .ok (fst, st2) => _index st2 (normalize_path tp)) :
        Except Err (String × FIM)) = .error .integrityError
    rcases hidx : index st1 (normalize_path fp) with e | pr
    · rw [index_err hidx]
    · obtain ⟨i1, st2⟩ := pr
      have hmem2 : r ∈ st2.files := by
        rcases index_ok_shape hidx with ⟨-, heq⟩ | ⟨-, -, hfiles, -⟩
        · rw [heq]
          exact hsub1 r hrmem
        · rw [hfiles]
          exact List.mem_append_left _ (hsub1 r hrmem)
      show _index st2 (normalize_path tp) = .error .integrityError
      simp only [_index]
      rw [dbInsert_dup_path (mem_pathsOf.mpr ⟨r, hmem2, hrpath⟩)]

/-- C10 witness at a concrete store where the destination `"z"` is already
indexed. -/
theorem C10_copy_existing_destination_witness :
    copy ⟨[⟨1, "a/b"⟩, ⟨2, "z"⟩], fun k => k + 3, 0⟩ "a" "z" true =
      .error .integrityError :=
  C10_copy_existing_destination ⟨[⟨1, "a/b"⟩, ⟨2, "z"⟩], fun k => k + 3, 0⟩
    "a" "z" true (by decide)

theorem find?_id_of_nodup {l : List Record} {r : Record}
    (hnd : (idsOf l).Nodup) (hr : r ∈ l) :
    l.find? (fun q => q.id == r.id) = some r := by
  induction l with
  | nil => cases hr
  | cons a l ih =>
    rcases List.mem_cons.mp hr with heq | hr2
    · subst heq
      exact List.find?_cons_of_pos _ (by simp)
    · have hane : ¬((fun q => q.id == r.id) a = true) := by
        simp only [beq_iff_eq]
        intro he
        have hmem : r.id ∈ idsOf l := mem_idsOf.mpr ⟨r, hr2, rfl⟩
        rw [← he] at hmem
        exact (List.nodup_cons.mp (by simpa [idsOf] using hnd)).1 hmem
      have hstep := List.find?_cons_of_neg (p := fun q => q.id == r.id) l hane
      rw [hstep]
      exact ih (by simpa [idsOf] using (List.nodup_cons.mp
        (by simpa [idsOf] using hnd)).2) hr2

theorem find?_path_of_nodup {l : List Record} {r : Record}
    (hnd : (pathsOf l).Nodup) (hr : r ∈ l) :
    l.find? (fun q => q.path == r.path) = some r := by
  induction l with
  | nil => cases hr
  | cons a l ih =>
    rcases List.mem_cons.mp hr with heq | hr2
    · subst heq
      exact List.find?_cons_of_pos _ (by simp)
    · have hane : ¬((fun q => q.path == r.path) a = true) := by
        simp only [beq_iff_eq]
        intro he
        have hmem : r.path ∈ pathsOf l := mem_pathsOf.mpr ⟨r, hr2, rfl⟩
        rw [← he] at hmem
        exact (List.nodup_cons.mp (by simpa [pathsOf] using hnd)).1 hmem
      have hstep := List.find?_cons_of_neg (p := fun q => q.path == r.path) l hane
      rw [hstep]
      exact ih (by simpa [pathsOf] using (List.nodup_cons.mp
        (by simpa [pathsOf] using hnd)).2) hr2

/-- The round trip on one well-formed stored record. -/
theorem roundtrip_record {st2 : FIM} {r : Record}
    (h1 : (idsOf st2.files).Nodup) (h2 : (pathsOf st2.files).Nodup)
    (hr : r ∈ st2.files) (hb : r.id < 2 ^ 128)
    (hn : normalize_path r.path = r.path) :
    get_path st2 (uuidStr r.id) = .ok (some r.path) ∧
    get_id st2 r.path = some (uuidStr r.id) := by
  constructor
  · simp only [get_path, parseUUID_uuidStr hb]
    rw [find?_id_of_nodup h1 hr]
    rfl
  · simp only [get_id]
    rw [hn, find?_path_of_nodup h2 hr]

/-- C6: round trip — an identifier returned by a successful `index` or
`insert` resolves through `get_path` to the record's path, and `get_id` of
that path returns the same identifier string.  Assumes the store invariants
(uniqueness, 128-bit stored ids, normalized stored paths) and that the next
`uuid4` value and any caller-supplied `UUID` are 128-bit values. -/
theorem C6_round_trip (st : FIM) (p : String) (fid : FidArg)
    (hwf : WF st) (hbound : IdsBound st) (hnorm : StoredNorm st)
    (hgb : st.gen st.ctr < 2 ^ 128)
    (hfidb : ∀ n, fid = .uuid n → n < 2 ^ 128) :
    (∀ i st', index st p = .ok (i, st') →
      ∃ q, get_path st' i = .ok (some q) ∧ get_id st' q = some i) ∧
    (∀ i st', insert st p fid = .ok (i, st') →
      ∃ q, get_path st' i = .ok (some q) ∧ get_id st' q = some i) := by
  constructor
  · intro i st' h
    rcases index_ok_shape h with ⟨hg, rfl⟩ | ⟨hg, hi, hfiles, hgen, hctr, hid, hpath⟩
    · obtain ⟨r, hfind, hrmem, hrpath, hieq⟩ := get_id_some hg
      subst hieq
      exact ⟨r.path, roundtrip_record hwf.1 hwf.2 hrmem (hbound r hrmem) (hnorm r hrmem)⟩
    · have hrmem : (⟨st.gen st.ctr, normalize_path p⟩ : Record) ∈ st'.files := by
        rw [hfiles]
        exact List.mem_append_right _ (List.mem_cons_self _ _)
      have hwf' : WF st' := wf_index h hwf
      have hrt := @roundtrip_record st' ⟨st.gen st.ctr, normalize_path p⟩
        hwf'.1 hwf'.2 hrmem hgb (normalize_path_idem p)
      dsimp only at hrt
      rw [hi]
      exact ⟨normalize_path p, hrt⟩
  · intro i st' h
    obtain ⟨n, hi, hfiles, hgen, hid, hpath, hcase⟩ := insert_ok_shape h
    have hnb : n < 2 ^ 128 := by
      rcases hcase with hg | ⟨s, _, hparse⟩ | hu
      · rw [hg]; exact hgb
      · exact parseUUID_lt hparse
      · exact hfidb n hu
    have hrmem : (⟨n, normalize_path p⟩ : Record) ∈ st'.files := by
      rw [hfiles]
      exact List.mem_append_right _ (List.mem_cons_self _ _)
    have hwf' : WF st' := wf_insert h hwf
    have hrt := @roundtrip_record st' ⟨n, normalize_path p⟩
      hwf'.1 hwf'.2 hrmem hnb (normalize_path_idem p)
    dsimp only at hrt
    rw [hi]
    exact ⟨normalize_path p, hrt⟩

/-- C6 witness: the round trip on a concrete fresh index and a concrete
explicit insert. -/
theorem C6_round_trip_witness :
    (∀ i st', index ⟨[⟨1, "a"⟩], fun k => k + 7, 0⟩ "a/b.txt" = .ok (i, st') →
      ∃ q, get_path st' i = .ok (some q) ∧ get_id st' q = some i) ∧
    (∀ i st', insert ⟨[⟨1, "a"⟩], fun k => k + 7, 0⟩ "a/b.txt" (.uuid 5) =
        .ok (i, st') →
      ∃ q, get_path st' i = .ok (some q) ∧ get_id st' q = some i) :=
  C6_round_trip ⟨[⟨1, "a"⟩], fun k => k + 7, 0⟩ "a/b.txt" (.uuid 5)
    ⟨by decide, by decide⟩
    (by intro r hr; simp only [List.mem_singleton] at hr; rw [hr]; decide)
    (by intro r hr; simp only [List.mem_singleton] at hr; rw [hr]; rfl)
    (by decide)
    (fun n h => by injection h with h; rw [← h]; decide)

/-! ### The recursive `UPDATE` of `move`, spelled out -/

/-- Cutting a separator-bounded descendant path at `len(old_path) + 1` and
prepending the new prefix yields exactly the new descendant path. -/
theorem substr_after_sep (op np suf : String) :
    np ++ sqlSubstr (op ++ "/" ++ suf) (op.length + 1) = np ++ "/" ++ suf := by
  apply String.ext
  have h1 : (op ++ "/" ++ suf).data = op.data ++ ('/' :: suf.data) := by
    rw [String.data_append, String.data_append, List.append_assoc]
    rfl
  have h2 : (np ++ "/" ++ suf).data = np.data ++ ('/' :: suf.data) := by
    rw [String.data_append, String.data_append, List.append_assoc]
    rfl
  rw [String.data_append, h2]
  show np.data ++ List.drop (op.length + 1 - 1) (op ++ "/" ++ suf).data
      = np.data ++ ('/' :: suf.data)
  rw [Nat.add_sub_cancel, h1]
  show np.data ++ (op.data ++ ('/' :: suf.data)).drop op.data.length
      = np.data ++ ('/' :: suf.data)
  rw [List.drop_left]

/-- A successful recursive `UPDATE` maps every matching row and keeps the
others. -/
theorem moveRecUpdate_ok {files files1 : List Record} {op np : String}
    (h : moveRecUpdate files op np = .ok files1) :
    files1 = files.map (fun r =>
      if globMatch (joinStar op) r.path then
        (⟨r.id, np ++ sqlSubstr r.path (op.length + 1)⟩ : Record) else r) := by
  simp only [moveRecUpdate, dbUpdate] at h
  have hm := dbUpdateGo_ok_map h
  simpa using hm

/-- The recursive `UPDATE` of `move` never changes the id column. -/
theorem idsOf_moveRecUpdate {files files1 : List Record} {op np : String}
    (h : moveRecUpdate files op np = .ok files1) :
    idsOf files1 = idsOf files := by
  rw [moveRecUpdate_ok h]
  simp only [idsOf, List.map_map]
  refine List.map_congr_left ?_
  intro r _
  by_cases hc : globMatch (joinStar op) r.path = true
  · simp [hc]
  · simp [hc]

/-- C1, counterexample.  Two departures from the stated generality.
First, the separator boundary is implemented with sqlite `GLOB`, whose
wildcards are live in `old_path`: with only `"a*b/c"` indexed — a path that
merely shares the raw string prefix `"a*"` with the moved path and has no
separator boundary after it — `move("a*", "z", recursive=True)` rewrites it
to `"zb/c"` instead of leaving it completely unchanged.  Second, a rewritten
descendant need not end at `new_path ++ "/" ++ suffix`: with `"p/q/q"`
indexed, `move("p/q", "p", recursive=True)` first rewrites it to `"p/q"`, and
the subsequent exact-record step — which now finds it at `old_path` — moves
it again, to `"p"`, so no record for `"p" ++ "/" ++ "q"` survives. -/
theorem C1_counterexample :
    (¬ ∃ suf : String, "a*b/c" = "a*" ++ "/" ++ suf) ∧
    (∃ stA, move ⟨[⟨1, "a*b/c"⟩], fun k => k + 2, 0⟩ "a*" "z" true
        = .ok (uuidStr 2, stA) ∧ stA.files = [⟨1, "zb/c"⟩, ⟨2, "z"⟩] ∧
        (⟨1, "a*b/c"⟩ : Record) ∉ stA.files) ∧
    ("p/q/q" = "p/q" ++ "/" ++ "q") ∧
    (∃ stB, move ⟨[⟨1, "p/q/q"⟩], fun k => k + 4, 0⟩ "p/q" "p" true
        = .ok (uuidStr 1, stB) ∧ stB.files = [⟨1, "p"⟩] ∧
        (⟨1, "p" ++ "/" ++ "q"⟩ : Record) ∉ stB.files) := by
  refine ⟨?_, ⟨⟨[⟨1, "zb/c"⟩, ⟨2, "z"⟩], fun k => k + 2, 1⟩, rfl, rfl, by decide⟩,
    rfl, ⟨⟨[⟨1, "p"⟩], fun k => k + 4, 0⟩, rfl, rfl, by decide⟩⟩
  intro ⟨suf, hsuf⟩
  have h2 : ("a*b/c" : String).data = ("a*" ++ "/").data ++ suf.data := by
    rw [← String.data_append, ← hsuf]
  have h3 : ('a' :: '*' :: 'b' :: '/' :: 'c' :: [])
      = 'a' :: '*' :: '/' :: suf.data := h2
  injection h3 with e1 h3
  injection h3 with e2 h3
  injection h3 with e3 h3
  exact absurd e3 (by decide)

/-- C1 (amended): for a normalized `old_path` free of GLOB wildcards (and not
the root), and a `new_path` whose subtree does not fold back onto `old_path`
(`new_path ++ "/" ++ suffix` never equals `old_path`), a successful
`move(old_path, new_path, recursive=True)` rewrites every separator-bounded
descendant `old_path ++ "/" ++ suffix` to `new_path ++ "/" ++ suffix` keeping
its identifier, and leaves every record that is neither a separator-bounded
descendant nor the exact `old_path` record — in particular every sibling
sharing only a raw string prefix — completely unchanged.  Assumes the store
uniqueness invariant and 128-bit stored ids. -/
theorem C1_move_recursive (st : FIM) (op np i : String) (st' : FIM)
    (hop : normalize_path op = op) (hnp : normalize_path np = np)
    (hlit : GlobLiteral op) (hroot : NotRootLike op)
    (hnocol : ∀ suf : String, np ++ "/" ++ suf ≠ op)
    (hwf : WF st) (hb : IdsBound st)
    (h : move st op np true = .ok (i, st')) :
    (∀ r ∈ st.files, ∀ suf, r.path = op ++ "/" ++ suf →
      (⟨r.id, np ++ "/" ++ suf⟩ : Record) ∈ st'.files) ∧
    (∀ r ∈ st.files, (∀ suf, r.path ≠ op ++ "/" ++ suf) → r.path ≠ op →
      r ∈ st'.files) := by
  obtain ⟨files1, hmid, hgen, hrest⟩ := move_shape h
  rw [if_pos (rfl : (true = true)), hop, hnp] at hmid
  rw [hop] at hrest
  rw [hnp] at hrest
  have hmap := moveRecUpdate_ok hmid
  have hdesc : ∀ r ∈ st.files, ∀ suf, r.path = op ++ "/" ++ suf →
      (⟨r.id, np ++ "/" ++ suf⟩ : Record) ∈ files1 := by
    intro r hr suf hsuf
    have hg : globMatch (joinStar op) r.path = true :=
      (globMatch_literal hlit hroot).mpr ⟨suf, hsuf⟩
    have hmem : (⟨r.id, np ++ sqlSubstr r.path (op.length + 1)⟩ : Record) ∈ files1 := by
      rw [hmap]
      refine List.mem_map.mpr ⟨r, hr, ?_⟩
      rw [if_pos hg]
    rw [hsuf, substr_after_sep] at hmem
    exact hmem
  have hkeep : ∀ r ∈ st.files, (∀ suf, r.path ≠ op ++ "/" ++ suf) →
      r ∈ files1 := by
    intro r hr hnosuf
    have hg : ¬ globMatch (joinStar op) r.path = true := by
      intro hg
      obtain ⟨suf, hsuf⟩ := (globMatch_literal hlit hroot).mp hg
      exact hnosuf suf hsuf
    rw [hmap]
    refine List.mem_map.mpr ⟨r, hr, ?_⟩
    rw [if_neg hg]
  have hids1 : idsOf files1 = idsOf st.files := idsOf_moveRecUpdate hmid
  rcases hrest with ⟨hgid, hi, hctr, hins⟩ | ⟨m, hgid, hpm, hctr, hupd⟩
  · obtain ⟨hout, _, _⟩ := dbInsert_ok hins
    constructor
    · intro r hr suf hsuf
      rw [hout]
      exact List.mem_append_left _ (hdesc r hr suf hsuf)
    · intro r hr hnosuf _
      rw [hout]
      exact List.mem_append_left _ (hkeep r hr hnosuf)
  · obtain ⟨q, hfind, hq1, hq2, hieq⟩ := get_id_some hgid
    rw [hop] at hq2
    have hq1' : q ∈ files1 := hq1
    have hqb : q.id < 2 ^ 128 := by
      have hqm : q.id ∈ idsOf files1 := mem_idsOf.mpr ⟨q, hq1', rfl⟩
      rw [hids1] at hqm
      obtain ⟨r0, hr0, hr0id⟩ := mem_idsOf.mp hqm
      rw [← hr0id]
      exact hb r0 hr0
    have hm : m = q.id := by
      rw [hieq, parseUUID_uuidStr hqb] at hpm
      exact (Option.some.inj hpm).symm
    simp only [dbUpdate] at hupd
    have hmap2 := dbUpdateGo_ok_map hupd
    rw [List.nil_append] at hmap2
    have hnd1 : (files1.map (fun r => r.id)).Nodup := by
      have hnd : (idsOf files1).Nodup := by rw [hids1]; exact hwf.1
      exact hnd
    have hne_of : ∀ t ∈ files1, t.path ≠ op → ¬(t.id == m) = true := by
      intro t ht htp
      simp only [beq_iff_eq, hm]
      intro he
      have ht2 : t = q := List.inj_on_of_nodup_map hnd1 ht hq1' he
      exact htp (ht2 ▸ hq2)
    constructor
    · intro r hr suf hsuf
      have hmem := hdesc r hr suf hsuf
      have hne := hne_of _ hmem (hnocol suf)
      rw [hmap2]
      refine List.mem_map.mpr ⟨_, hmem, ?_⟩
      simp [hne]
    · intro r hr hnosuf hrop
      have hmem := hkeep r hr hnosuf
      have hne := hne_of r hmem hrop
      rw [hmap2]
      refine List.mem_map.mpr ⟨r, hmem, ?_⟩
      simp [hne]

/-- C1 witness: the spec scenario — `"a/b.txt"` and the prefix-sharing
sibling `"ab/c.txt"` indexed, then `move("a", "z", recursive=True)`: the
descendant is rewritten keeping id 1, the sibling is untouched. -/
theorem C1_move_recursive_witness :
    (∀ r ∈ [(⟨1, "a/b.txt"⟩ : Record), ⟨2, "ab/c.txt"⟩], ∀ suf,
        r.path = "a" ++ "/" ++ suf →
        (⟨r.id, "z" ++ "/" ++ suf⟩ : Record) ∈
          [(⟨1, "z/b.txt"⟩ : Record), ⟨2, "ab/c.txt"⟩, ⟨5, "z"⟩]) ∧
    (∀ r ∈ [(⟨1, "a/b.txt"⟩ : Record), ⟨2, "ab/c.txt"⟩],
        (∀ suf, r.path ≠ "a" ++ "/" ++ suf) → r.path ≠ "a" →
        r ∈ [(⟨1, "z/b.txt"⟩ : Record), ⟨2, "ab/c.txt"⟩, ⟨5, "z"⟩]) :=
  C1_move_recursive ⟨[⟨1, "a/b.txt"⟩, ⟨2, "ab/c.txt"⟩], fun k => k + 5, 0⟩
    "a" "z" (uuidStr 5) ⟨[⟨1, "z/b.txt"⟩, ⟨2, "ab/c.txt"⟩, ⟨5, "z"⟩], fun k => k + 5, 1⟩
    rfl rfl (by decide) (by decide)
    (fun suf h => by
      have h2 := congrArg String.length h
      rw [String.length_append, String.length_append] at h2
      have hz : ("z" : String).length = 1 := rfl
      have hs : ("/" : String).length = 1 := rfl
      have ha : ("a" : String).length = 1 := rfl
      rw [hz, hs, ha] at h2
      omega)
    ⟨by decide, by decide⟩
    (by
      intro r hr
      rcases List.mem_cons.mp hr with h1 | h1
      · rw [h1]; decide
      · rw [List.mem_singleton] at h1; rw [h1]; decide)
    rfl

/-- C8, counterexample.  Presence of `old_path` is judged only after the
recursive rewrite, which can itself deposit a record at `old_path`: with only
`"p/q/q"` indexed, `old_path = "p/q"` has no record at the time of the call,
yet `move("p/q", "p", recursive=True)` does not create a fresh record for
`new_path` — the rewrite turns `"p/q/q"` into `"p/q"`, the presence check then
finds it, and its pre-existing identifier (not a fresh `uuid4`: the stream
cursor is untouched and the fresh value would have been `uuidStr 4`) is
returned after it is retargeted to `"p"`. -/
theorem C8_counterexample :
    get_id ⟨[⟨1, "p/q/q"⟩], fun k => k + 4, 0⟩ "p/q" = none ∧
    uuidStr 1 ≠ uuidStr 4 ∧
    (∃ stB, move ⟨[⟨1, "p/q/q"⟩], fun k => k + 4, 0⟩ "p/q" "p" true
        = .ok (uuidStr 1, stB) ∧ stB.files = [⟨1, "p"⟩] ∧ stB.ctr = 0) :=
  ⟨rfl, by decide, ⟨[⟨1, "p"⟩], fun k => k + 4, 0⟩, rfl, rfl, rfl⟩

/-- C8 (amended): the present/absent dichotomy of `move` holds with presence
judged on the table as it stands after the recursive rewrite step (for
`recursive=False`, the unchanged table).  If that table has no record at the
normalized `old_path`, a fresh `uuid4` identifier is drawn, a record for the
normalized `new_path` is appended with it, and its string form is returned;
if it has one, exactly the rows carrying that record's identifier are
retargeted to `new_path`, the identifier is kept, and its string form is
returned.  Assumes 128-bit stored ids. -/
theorem C8_move_presence (st : FIM) (op np : String) (rec : Bool) (i : String) (st' : FIM)
    (hb : IdsBound st)
    (h : move st op np rec = .ok (i, st')) :
    ∃ files1,
      (if rec then moveRecUpdate st.files (normalize_path op) (normalize_path np)
       else Except.ok st.files) = .ok files1 ∧
      (((∀ r ∈ files1, r.path ≠ normalize_path op) ∧
         i = uuidStr (st.gen st.ctr) ∧ st'.ctr = st.ctr + 1 ∧
         st'.files = files1 ++ [⟨st.gen st.ctr, normalize_path np⟩]) ∨
       (∃ q ∈ files1, q.path = normalize_path op ∧ i = uuidStr q.id ∧
         st'.ctr = st.ctr ∧
         st'.files = files1.map
           (fun r => if r.id == q.id then ⟨r.id, normalize_path np⟩ else r))) := by
  obtain ⟨files1, hmid, hgen, hrest⟩ := move_shape h
  refine ⟨files1, hmid, ?_⟩
  have hids1 : idsOf files1 = idsOf st.files := by
    cases rec
    · rw [if_neg (by decide : ¬(false = true))] at hmid
      injection hmid with hmid
      rw [← hmid]
    · rw [if_pos (rfl : (true = true))] at hmid
      exact idsOf_moveRecUpdate hmid
  rcases hrest with ⟨hgid, hi, hctr, hins⟩ | ⟨m, hgid, hpm, hctr, hupd⟩
  · refine Or.inl ⟨?_, hi, hctr, (dbInsert_ok hins).1⟩
    have hnone := get_id_none_iff.mp hgid
    intro r hr
    have hne := hnone r hr
    rwa [normalize_path_idem] at hne
  · obtain ⟨q, hfind, hq1, hq2, hieq⟩ := get_id_some hgid
    rw [normalize_path_idem] at hq2
    have hq1' : q ∈ files1 := hq1
    have hqb : q.id < 2 ^ 128 := by
      have hqm : q.id ∈ idsOf files1 := mem_idsOf.mpr ⟨q, hq1', rfl⟩
      rw [hids1] at hqm
      obtain ⟨r0, hr0, hr0id⟩ := mem_idsOf.mp hqm
      rw [← hr0id]
      exact hb r0 hr0
    have hm : m = q.id := by
      rw [hieq, parseUUID_uuidStr hqb] at hpm
      exact (Option.some.inj hpm).symm
    simp only [dbUpdate] at hupd
    have hmap2 := dbUpdateGo_ok_map hupd
    rw [List.nil_append] at hmap2
    refine Or.inr ⟨q, hq1', hq2, hieq, hctr, ?_⟩
    rw [hmap2, hm]

/-- C8 witness: moving an absent-but-for-a-descendant-free table entry —
only `"d/e"` is indexed, `move("d", "w", recursive=True)` rewrites the
descendant and then, finding no record at `"d"`, appends a fresh record for
`"w"`. -/
theorem C8_move_presence_witness :
    ∃ files1,
      (if true then moveRecUpdate [(⟨3, "d/e"⟩ : Record)]
          (normalize_path "d") (normalize_path "w")
       else Except.ok [(⟨3, "d/e"⟩ : Record)]) = .ok files1 ∧
      (((∀ r ∈ files1, r.path ≠ normalize_path "d") ∧
         (uuidStr 9 : String) = uuidStr 9 ∧ (1 : Nat) = 0 + 1 ∧
         [(⟨3, "w/e"⟩ : Record), ⟨9, "w"⟩] = files1 ++ [⟨9, normalize_path "w"⟩]) ∨
       (∃ q ∈ files1, q.path = normalize_path "d" ∧
         (uuidStr 9 : String) = uuidStr q.id ∧ (1 : Nat) = 0 ∧
         [(⟨3, "w/e"⟩ : Record), ⟨9, "w"⟩] = files1.map
           (fun r => if r.id == q.id then ⟨r.id, normalize_path "w"⟩ else r))) :=
  C8_move_presence ⟨[⟨3, "d/e"⟩], fun k => k + 9, 0⟩ "d" "w" true (uuidStr 9)
    ⟨[⟨3, "w/e"⟩, ⟨9, "w"⟩], fun k => k + 9, 1⟩
    (by intro r hr; rw [List.mem_singleton] at hr; rw [hr]; decide)
    rfl

/-- C2, counterexample.  The subtree selection of `copy` is sqlite `GLOB`,
whose wildcards are live in `from_path`: with only `"a[b]/c"` indexed —
a separator-bounded descendant of `"a[b]"` — `copy("a[b]", "z",
recursive=True)` copies no descendant at all (the `[b]` is parsed as a
character class, so `"a[b]/c"` does not match `"a[b]/\x2a"`); the final table
holds the two root records made by `index(from_path)` and
`_index(to_path)` but no record at `"z/c"`. -/
theorem C2_counterexample :
    ("a[b]/c" = "a[b]" ++ "/" ++ "c") ∧
    (∃ stC, copy ⟨[⟨1, "a[b]/c"⟩], fun k => k + 7, 0⟩ "a[b]" "z" true
        = .ok (uuidStr 8, stC) ∧
        stC.files = [⟨1, "a[b]/c"⟩, ⟨7, "a[b]"⟩, ⟨8, "z"⟩] ∧
        ∀ r ∈ stC.files, r.path ≠ "z" ++ "/" ++ "c") :=
  ⟨rfl, ⟨[⟨1, "a[b]/c"⟩, ⟨7, "a[b]"⟩, ⟨8, "z"⟩], fun k => k + 7, 2⟩,
    rfl, rfl, by decide⟩

/-- C2 (amended): for a normalized `from_path` free of GLOB wildcards (and
not the root) and a normalized `to_path`, a successful
`copy(from_path, to_path, recursive=True)` keeps every original record
unchanged (the original table is a prefix of the final one), gives every
separator-bounded descendant `from_path ++ "/" ++ suffix` a copy at
`to_path ++ "/" ++ suffix` under an identifier absent from the original
table, and returns the string form of an identifier absent from the original
table whose record is the new `to_path` record.  Assumes statistical
uniqueness of the `uuid4` stream. -/
theorem C2_copy_recursive (st : FIM) (fp tp ret : String) (st' : FIM)
    (hfp : normalize_path fp = fp) (htp : normalize_path tp = tp)
    (hlit : GlobLiteral fp) (hroot : NotRootLike fp)
    (hfresh : FreshGen st)
    (h : copy st fp tp true = .ok (ret, st')) :
    st.files <+: st'.files ∧
    (∀ r ∈ st.files, ∀ suf, r.path = fp ++ "/" ++ suf →
      ∃ n, n ∉ idsOf st.files ∧ (⟨n, tp ++ "/" ++ suf⟩ : Record) ∈ st'.files) ∧
    (∃ n, ret = uuidStr n ∧ n ∉ idsOf st.files ∧ (⟨n, tp⟩ : Record) ∈ st'.files) := by
  obtain ⟨st1, i1, st2, hbulk, hidx, hlast⟩ := copy_shape h
  rw [if_pos (rfl : (true = true)), hfp, htp] at hbulk
  rw [hfp] at hidx
  rw [htp] at hlast
  simp only [bulkCopyInsert] at hbulk
  obtain ⟨hgen1, hctr1, hpre1, hids1, hrows1⟩ := bulkGo_shape hbulk
  have hpre2 : st1.files <+: st2.files ∧ st2.gen = st1.gen ∧ st1.ctr ≤ st2.ctr := by
    rcases index_ok_shape hidx with ⟨_, rfl⟩ | ⟨_, _, hfiles, hgen, hctr, _, _⟩
    · exact ⟨List.prefix_refl _, rfl, le_rfl⟩
    · exact ⟨by rw [hfiles]; exact List.prefix_append _ _, hgen, by omega⟩
  obtain ⟨hret, hfiles3, hgen3, hctr3, hidfree, hpfree⟩ := _index_ok hlast
  refine ⟨?_, ?_, ?_⟩
  · refine (hpre1.trans hpre2.1).trans ?_
    rw [hfiles3]
    exact List.prefix_append _ _
  · intro r hr suf hsuf
    have hg : globMatch (joinStar fp) r.path = true :=
      (globMatch_literal hlit hroot).mpr ⟨suf, hsuf⟩
    have hrow : r ∈ st.files.filter (fun r => globMatch (joinStar fp) r.path) :=
      List.mem_filter.mpr ⟨hr, hg⟩
    obtain ⟨k, hk1, hk2, hk3⟩ := hrows1 r hrow
    refine ⟨st.gen k, hfresh.1 k hk1, ?_⟩
    rw [hsuf, substr_after_sep] at hk3
    have hmem2 : (⟨st.gen k, tp ++ "/" ++ suf⟩ : Record) ∈ st2.files :=
      hpre2.1.subset hk3
    rw [hfiles3]
    exact List.mem_append_left _ hmem2
  · refine ⟨st2.gen st2.ctr, hret, ?_, ?_⟩
    · have hgg : st2.gen = st.gen := by rw [hpre2.2.1, hgen1]
      rw [hgg]
      exact hfresh.1 st2.ctr (le_trans hctr1 hpre2.2.2)
    · rw [hfiles3]
      exact List.mem_append_right _ (List.mem_cons_self _ _)

/-- C2 witness: `"a"` and its descendant `"a/b"` indexed, then
`copy("a", "z", recursive=True)`: the originals survive, the descendant is
copied to `"z/b"` under the fresh id 10, and the returned identifier is the
fresh id 11 of the new root record `"z"`. -/
theorem C2_copy_recursive_witness :
    ([(⟨1, "a"⟩ : Record), ⟨2, "a/b"⟩] <+:
      [(⟨1, "a"⟩ : Record), ⟨2, "a/b"⟩, ⟨10, "z/b"⟩, ⟨11, "z"⟩]) ∧
    (∀ r ∈ [(⟨1, "a"⟩ : Record), ⟨2, "a/b"⟩], ∀ suf,
      r.path = "a" ++ "/" ++ suf →
      ∃ n, n ∉ idsOf [(⟨1, "a"⟩ : Record), ⟨2, "a/b"⟩] ∧
        (⟨n, "z" ++ "/" ++ suf⟩ : Record) ∈
          [(⟨1, "a"⟩ : Record), ⟨2, "a/b"⟩, ⟨10, "z/b"⟩, ⟨11, "z"⟩]) ∧
    (∃ n, (uuidStr 11 : String) = uuidStr n ∧
      n ∉ idsOf [(⟨1, "a"⟩ : Record), ⟨2, "a/b"⟩] ∧
      (⟨n, "z"⟩ : Record) ∈
        [(⟨1, "a"⟩ : Record), ⟨2, "a/b"⟩, ⟨10, "z/b"⟩, ⟨11, "z"⟩]) :=
  C2_copy_recursive ⟨[⟨1, "a"⟩, ⟨2, "a/b"⟩], fun k => k + 10, 0⟩ "a" "z" (uuidStr 11)
    ⟨[⟨1, "a"⟩, ⟨2, "a/b"⟩, ⟨10, "z/b"⟩, ⟨11, "z"⟩], fun k => k + 10, 2⟩
    rfl rfl (by decide) (by decide)
    ⟨by
      intro k hk hmem
      dsimp only at hk hmem
      simp only [idsOf, List.map_cons, List.map_nil, List.mem_cons] at hmem
      rcases hmem with h1 | h1 | h1
      · omega
      · omega
      · exact absurd h1 (List.not_mem_nil _),
     by
      intro j k hj hk he
      have he2 : j + 10 = k + 10 := he
      omega⟩
    rfl

end FileId
